import Mathlib

set_option maxHeartbeats 1000000

namespace CSV

/-- Cells and raw text are modelled as lists of Unicode characters, because
the source iterates strings code point by code point. -/
abbrev Cell := List Char

/-- A configured quote/separators value as received by the API: a JavaScript
string, an array of strings, or any other value. -/
inductive ConfigValue where
  | str (s : List Char)
  | arr (l : List (List Char))
  | other
deriving DecidableEq

/-- Source toCharArray (CSV.mjs lines 5-19): a string becomes its code points,
an array keeps only its strings of length at most one, anything else yields
the empty list.  (Non-string array elements, which the source filter also
drops, are not representable in this embedding's array form.) -/
def toCharArray : ConfigValue → List (List Char)
  | .str s => s.map (fun c => [c])
  | .arr l => l.filter (fun e => e.length ≤ 1)
  | .other => []

/-- Source validQuotesAndSeparators (line 20). -/
def validQuotesAndSeparators (character : List Char) : Bool :=
  character ≠ ([] : List Char) && character ≠ ['\n'] && character ≠ ['\r']

/-- The character classes of the source: classifyCharacter produces the five
plain classes, reduceClass may additionally produce quoteSeparator. -/
inductive ReducedClass where
  | linefeed
  | other
  | quote
  | separator
  | space
  | quoteSeparator
deriving DecidableEq, Repr, Fintype

/-- The parser states of the tokenizing automaton (DETAILS / lines 43-98). -/
inductive ParserState where
  | empty
  | unsettled
  | unquoted
  | «open»
  | waiting
  | closed
  | finished
  | discarded
deriving DecidableEq, Repr, Fintype

/-- The row-scoped taint state driving the bug emulation (lines 205-235). -/
inductive LineTaint where
  | none
  | inactive
  | active
deriving DecidableEq, Repr, Fintype

/-- Source reduceClass (lines 24-42).  The result is an Option because the
source function falls through (returning undefined) on class lists outside
its cases. -/
def reduceClass (characterClasses : List ReducedClass) : Option ReducedClass :=
  if characterClasses.length = 1 then characterClasses.head?
  else if characterClasses.contains .space ∧ characterClasses.contains .quote
      ∧ ¬ characterClasses.contains .separator then some .quote
  else if characterClasses.contains .space ∧ ¬ characterClasses.contains .quote
      ∧ characterClasses.contains .separator then some .separator
  else if characterClasses.contains .quote ∧ characterClasses.contains .separator then
    some .quoteSeparator
  else Option.none

/-- The nested states lookup object inside transition (lines 44-85); rows
exist only for the five listed states, so other lookups yield none (the
source would throw dereferencing undefined). -/
def statesTable (parserState : ParserState) (reducedClass : ReducedClass) : Option ParserState :=
  match parserState, reducedClass with
  | .closed, .linefeed => some .finished
  | .closed, .other => some .«open»
  | .closed, .quote => some .closed
  | .closed, .quoteSeparator => some .finished
  | .closed, .separator => some .finished
  | .closed, .space => some .closed
  | .«open», .linefeed => some .«open»
  | .«open», .other => some .«open»
  | .«open», .quote => some .waiting
  | .«open», .quoteSeparator => some .waiting
  | .«open», .separator => some .«open»
  | .«open», .space => some .«open»
  | .unquoted, .linefeed => some .finished
  | .unquoted, .other => some .unquoted
  | .unquoted, .quote => some .unquoted
  | .unquoted, .quoteSeparator => some .finished
  | .unquoted, .separator => some .finished
  | .unquoted, .space => some .unquoted
  | .unsettled, .linefeed => some .finished
  | .unsettled, .other => some .unquoted
  | .unsettled, .quote => some .«open»
  | .unsettled, .quoteSeparator => some .«open»
  | .unsettled, .separator => some .finished
  | .unsettled, .space => some .unsettled
  | .waiting, .linefeed => some .finished
  | .waiting, .other => some .«open»
  | .waiting, .quote => some .«open»
  | .waiting, .quoteSeparator => some .«open»
  | .waiting, .separator => some .finished
  | .waiting, .space => some .closed
  | _, _ => Option.none

/-- Source transition (lines 87-97): the empty state is special-cased, a
linefeed discards, anything else behaves like unsettled. -/
def transition (parserState : ParserState) (reducedClass : ReducedClass) : Option ParserState :=
  if parserState = .empty then
    if reducedClass = .linefeed then some .discarded
    else statesTable .unsettled reducedClass
  else statesTable parserState reducedClass

/-- Source classifyCharacter (lines 153-178).  The quote is the effective
quote string (empty when absent); comparison of a one-code-point character
with that string is membership of the singleton list. -/
def classifyCharacter (character : Char) (quote : List Char)
    (separators : List (List Char)) : List ReducedClass :=
  if character = '\n' then [.linefeed]
  else
    let characterClasses :=
      (if [character] = quote then [ReducedClass.quote] else [])
        ++ (if separators.contains [character] then [ReducedClass.separator] else [])
        ++ (if character = ' ' then [ReducedClass.space] else [])
    if characterClasses = [] then [.other] else characterClasses

/-- The mutable aggregator threaded through the tokenizing fold
(lines 328-339). -/
structure Aggregator where
  array : List (List Cell)
  parserState : ParserState
  quote : List Char
  separators : List (List Char)
  ignoreLinefeedBeforeEOF : Bool
  taintQuoteSeparatorLines : Bool
  lineTaint : LineTaint
deriving DecidableEq, Repr

/-- Applies a function to the last element of a list, the shape of every
`array[array.length - 1]` access in the source. -/
def modLast (f : α → α) : List α → List α
  | [] => []
  | [a] => [f a]
  | a :: b :: rest => a :: modLast f (b :: rest)

/-- Source consume (lines 179-183): append text to the cell under
construction (last cell of the last row).  The aggregator's table is never
empty (the invariant proved below), matching the source's unguarded
indexing. -/
def consume (aggregator : Aggregator) (text : List Char) : Aggregator :=
  { aggregator with array := modLast (modLast (· ++ text)) aggregator.array }

/-- Source discardCell (lines 184-191): drop the last cell of the last row
only when that row has more than one cell. -/
def discardCell (aggregator : Aggregator) : Aggregator :=
  { aggregator with
    array :=
      if 1 < (aggregator.array.getLastD []).length then
        modLast List.dropLast aggregator.array
      else aggregator.array,
    parserState := .finished,
    lineTaint := .none }

/-- Source endCell (lines 192-204): a separator opens a new cell in the same
row, a linefeed opens a new row (resetting taint); the state becomes empty
in every case. -/
def endCell (aggregator : Aggregator) (characterClasses : List ReducedClass) : Aggregator :=
  if characterClasses.contains .separator then
    { aggregator with
      array := modLast (fun row => row ++ [([] : Cell)]) aggregator.array,
      parserState := .empty }
  else if characterClasses.contains .linefeed then
    { aggregator with
      array := aggregator.array ++ [[([] : Cell)]],
      lineTaint := .none,
      parserState := .empty }
  else { aggregator with parserState := .empty }

/-- Source lineTaintActivation (lines 205-212). -/
def lineTaintActivation (aggregator : Aggregator) (reducedClass : ReducedClass) : Aggregator :=
  if reducedClass = .quoteSeparator then { aggregator with lineTaint := .active }
  else if reducedClass = .separator then { aggregator with lineTaint := .inactive }
  else aggregator

/-- The first phase of the taint block of tokenizeCells (lines 219-229):
updates the row taint after the transition has been computed, using the
pre-transition parser state. -/
def lineTaintUpdate (aggregator : Aggregator) (reducedClass : ReducedClass)
    (tableState : ParserState) : Aggregator :=
  if tableState = .finished ∧ reducedClass ≠ .linefeed
      ∧ (aggregator.parserState = .closed ∨ aggregator.parserState = .waiting) then
    lineTaintActivation aggregator reducedClass
  else if tableState = .finished ∨ tableState = .discarded then
    if reducedClass = .linefeed then { aggregator with lineTaint := .none }
    else if aggregator.lineTaint ≠ .none then
      lineTaintActivation aggregator reducedClass
    else aggregator
  else aggregator

/-- The whole taint block of tokenizeCells (lines 218-236): when enabled,
update the taint and, on the bug trigger (a literal linefeed inside an
unterminated quote on an actively tainted row), append a quote character to
the cell, reset the taint and override the next state to finished. -/
def taintAdjust (aggregator : Aggregator) (reducedClass : ReducedClass)
    (tableState : ParserState) : Aggregator × ParserState :=
  if aggregator.taintQuoteSeparatorLines then
    let adjusted := lineTaintUpdate aggregator reducedClass tableState
    if reducedClass = .linefeed ∧ tableState = .«open» ∧ adjusted.lineTaint = .active then
      (consume { adjusted with lineTaint := .none } adjusted.quote, ParserState.finished)
    else (adjusted, tableState)
  else (aggregator, tableState)

/-- Source tokenizeCells (lines 213-261).  The source receives the character
index and the whole string but uses them only through the test
index !== string.length - 1; that test is the isLast argument here, supplied
by tokenizeAll.  A none result models the exception the source would raise
when reduceClass yields undefined or the transition lookup hits a missing
table row; parse totality below shows neither is reachable. -/
def tokenizeCells (aggregator : Aggregator) (character : Char) (isLast : Bool) :
    Option Aggregator :=
  let characterClasses := classifyCharacter character aggregator.quote aggregator.separators
  match reduceClass characterClasses with
  | Option.none => Option.none
  | some reducedClass =>
    match transition aggregator.parserState reducedClass with
    | Option.none => Option.none
    | some tableState =>
      match taintAdjust aggregator reducedClass tableState with
      | (adjusted, nextState) =>
        let aggregator : Aggregator := { adjusted with parserState := nextState }
        let aggregator : Aggregator :=
          if aggregator.parserState = .discarded then discardCell aggregator else aggregator
        if isLast = false then
          if aggregator.parserState = .finished then
            some (endCell aggregator characterClasses)
          else some (consume aggregator [character])
        else if aggregator.parserState = .«open» then
          let aggregator :=
            if aggregator.ignoreLinefeedBeforeEOF = false then consume aggregator [character]
            else aggregator
          some (consume aggregator aggregator.quote)
        else some aggregator

/-- Drives tokenizeCells over the whole text, flagging the final character
(the reduce over Array.from(csv) at lines 327-340). -/
def tokenizeAll (aggregator : Aggregator) : List Char → Option Aggregator
  | [] => some aggregator
  | [character] => tokenizeCells aggregator character true
  | character :: rest =>
    match tokenizeCells aggregator character false with
    | some next => tokenizeAll next rest
    | Option.none => Option.none

/-- Runs the tokenizer with every character flagged non-final: used to reason
about proper prefixes of the input. -/
def tokenizeNL (aggregator : Aggregator) : List Char → Option Aggregator
  | [] => some aggregator
  | character :: rest =>
    match tokenizeCells aggregator character false with
    | some next => tokenizeNL next rest
    | Option.none => Option.none

/-- Searches for the closing quote of the pattern quote-content-quote-spaces
used by parseString, working on the reversed remainder: trailing spaces are
peeled one at a time (the backtracking of the greedy content group) until
the rest ends in the quote string; sp counts the peeled spaces (capture
group 2 of the source regex).  Both the argument and the returned content
are reversed. -/
def findQuoteEndRev (qrev : List Char) (core : List Char) (sp : Nat) :
    Option (List Char × Nat) :=
  if qrev.isPrefixOf core then some (core.drop qrev.length, sp)
  else
    match core with
    | ' ' :: rest => findQuoteEndRev qrev rest (sp + 1)
    | _ => Option.none

/-- Matches the source regex surroundedQuotes, anchored, with its greedy
groups: optional leading spaces, the quote, the content (group 1, maximal),
the quote again, optional trailing spaces (group 2).  Returns the content
and the number of trailing spaces.  In parse the quote is always empty or a
single non-space character, for which this matcher is exact. -/
def stripSurrounded (q : List Char) (s : List Char) : Option (List Char × Nat) :=
  let rest := s.dropWhile (fun c => c = ' ')
  if q.isPrefixOf rest then
    (findQuoteEndRev q.reverse (rest.drop q.length).reverse 0).map
      (fun p => (p.1.reverse, p.2))
  else Option.none

/-- The global replacement of escapedQuotes, collapsing each doubled quote
to a single one, scanning left to right.  In parse the quote is always
empty (no doubled occurrence exists, identity) or one character. -/
def unescapeDoubled (q : List Char) : List Char → List Char
  | [] => []
  | [c] => [c]
  | c :: d :: rest =>
    if [c] = q ∧ [d] = q then c :: unescapeDoubled q rest
    else c :: unescapeDoubled q (d :: rest)

/-- Source parseString (lines 120-144), the per-cell normalizer.  When the
quote is not the space character, a recognized quoted span is unquoted, its
trailing spaces dropped unless ignoreSpacesAfterQuotedString is false, and
doubled quotes are collapsed; when the quote is the space character the
exactly-one-space pattern applies; otherwise the cell passes through.  When
the quote is absent (empty), the source regex degenerates to one that
matches every string with an empty quote part, so the effect is stripping
the leading spaces. -/
def parseString (quote : List Char) (ignoreSpacesAfterQuotedString : Bool)
    (s : List Char) : List Char :=
  if quote ≠ [' '] then
    match stripSurrounded quote s with
    | some (mid, sp) =>
      unescapeDoubled quote
        (mid ++ (if ignoreSpacesAfterQuotedString then [] else List.replicate sp ' '))
    | Option.none => s
  else
    match s, s.getLast? with
    | ' ' :: rest, some ' ' =>
      if rest = [] then s else unescapeDoubled quote rest.dropLast
    | _, _ => s

/-- The strict line-break normalization (regex at line 22, applied at
line 314): each crlf pair or lone cr becomes one linefeed, scanning left to
right. -/
def normalizeStrict : List Char → List Char
  | [] => []
  | [c] => if c = '\r' then ['\n'] else [c]
  | c :: d :: rest =>
    if c = '\r' then
      if d = '\n' then '\n' :: normalizeStrict rest
      else '\n' :: normalizeStrict (d :: rest)
    else c :: normalizeStrict (d :: rest)

/-- The loose line-break normalization (regex at line 23): additionally
recognizes lf-cr as a single break. -/
def normalizeLoose : List Char → List Char
  | [] => []
  | [c] => if c = '\r' then ['\n'] else [c]
  | c :: d :: rest =>
    if c = '\r' then
      if d = '\n' then '\n' :: normalizeLoose rest
      else '\n' :: normalizeLoose (d :: rest)
    else if c = '\n' then
      if d = '\r' then '\n' :: normalizeLoose rest
      else c :: normalizeLoose (d :: rest)
    else c :: normalizeLoose (d :: rest)

/-- The options object of parse (line 313) with its defaults. -/
structure ParseOptions where
  quote : ConfigValue := .str ['"']
  separators : ConfigValue := .arr [[',']]
  forceLineFeedAfterCarriageReturn : Bool := true
  ignoreLinefeedBeforeEOF : Bool := true
  ignoreSpacesAfterQuotedString : Bool := true
  taintQuoteSeparatorLines : Bool := false

/-- The effective quote of parse (line 321): first surviving candidate, or
absent (empty). -/
def effectiveQuote (quote : ConfigValue) : List Char :=
  (((toCharArray quote).filter validQuotesAndSeparators).head?).getD []

/-- The effective separator set (line 322). -/
def effectiveSeparators (separators : ConfigValue) : List (List Char) :=
  (toCharArray separators).filter validQuotesAndSeparators

/-- The string the source stores under the key this[index] when index is
past the header's end: the property key undefined stringifies to this. -/
def undefinedKey : List Char := ['u', 'n', 'd', 'e', 'f', 'i', 'n', 'e', 'd']

/-- One JavaScript object property assignment on an association list:
update in place when the key exists, append otherwise. -/
def objSet (m : List (Cell × Cell)) (k v : Cell) : List (Cell × Cell) :=
  if m.any (fun p => p.1 = k) then
    m.map (fun p => if p.1 = k then (k, v) else p)
  else m ++ [(k, v)]

/-- Source toHashMap (lines 270-276): fold the row's cells into an object
keyed by the header entry at the same index (the key is the string
undefined when the row is longer than the header). -/
def toHashMap (header : List Cell) (row : List Cell) : List (Cell × Cell) :=
  row.enum.foldl (fun m ic => objSet m (header.getD ic.1 undefinedKey) ic.2) []

/-- The structured result of parse (lines 346-350). -/
structure ParseResult where
  header : List Cell
  rows : List (List Cell)
  mappedRows : List (List (Cell × Cell))
deriving DecidableEq, Repr

/-- The initial aggregator of the tokenizing fold (lines 328-339). -/
def initialAggregator (quote : List Char) (separators : List (List Char))
    (options : ParseOptions) : Aggregator :=
  { array := [[([] : Cell)]],
    parserState := .empty,
    quote := quote,
    separators := separators,
    ignoreLinefeedBeforeEOF := options.ignoreLinefeedBeforeEOF,
    taintQuoteSeparatorLines :=
      options.taintQuoteSeparatorLines && separators.contains quote,
    lineTaint := .none }

/-- The preprocessing passes of parse (lines 314-320), the spec's
Preprocessor component: normalize line breaks, guarantee a final linefeed,
strip NUL characters. -/
def preprocess (csv : List Char) (options : ParseOptions) : List Char :=
  let csv :=
    if options.forceLineFeedAfterCarriageReturn then normalizeStrict csv
    else normalizeLoose csv
  let csv :=
    csv ++ (if options.ignoreLinefeedBeforeEOF ∧ csv.getLast? = some '\n' then []
      else ['\n'])
  csv.filter (fun c => c ≠ '\x00')

/-- Source parse (lines 313-351).  A none result models an uncaught
exception; parse totality below shows it never occurs.  The final empty
match arm corresponds to destructuring an empty table, which the tokenizer
never produces. -/
def parse (csv : List Char) (options : ParseOptions) : Option ParseResult :=
  let csv := preprocess csv options
  let quote := effectiveQuote options.quote
  let separators := effectiveSeparators options.separators
  match tokenizeAll (initialAggregator quote separators options) csv with
  | Option.none => Option.none
  | some aggregator =>
    let table := aggregator.array.map
      (fun row => row.map (parseString quote options.ignoreSpacesAfterQuotedString))
    match table with
    | [] => Option.none
    | header :: rows =>
      some { header := header, rows := rows, mappedRows := rows.map (toHashMap header) }

/-- The options object of stringify (line 352) with its defaults.  The
lineEnd is any string; invalid values fall back at line 359. -/
structure StringifyOptions where
  quote : ConfigValue := .str ['"']
  separator : ConfigValue := .str [',']
  lineEnd : List Char := ['\n']
  trimEmpty : Bool := true
  lineEndBeforeEOF : Bool := false

/-- Source quoteString (lines 285-299): wrap the cell in quotes, doubling
internal quotes, exactly when it contains a linefeed, the quote, or the
separator.  In stringify the quote and separator are single characters
(their defaults are restored when filtered out), for which the doubling
replacement below is exact. -/
def quoteString (quote separator : List Char) (cell : Cell) : Cell :=
  let quotedContent :=
    cell.flatMap (fun c => if [c] = quote then quote ++ quote else [c])
  if cell.contains '\n' ∨ quote <:+: cell ∨ separator <:+: cell then
    quote ++ quotedContent ++ quote
  else cell

/-- The Math.max over the row lengths (lines 391-393); the spread is never
empty because the header row is always present. -/
def listMax : List Nat → Nat := List.foldl max 0

/-- Source toCSVLine (lines 300-309): materialize maxCellCount cells
(missing ones empty), quote each, join with the separator. -/
def toCSVLine (quote separator : List Char) (maxCellCount : Int) (line : List Cell) :
    Cell :=
  List.intercalate separator
    (((List.range maxCellCount.toNat).map (fun index => line.getD index [])).map
      (quoteString quote separator))

/-- The row-trimming loop (lines 396-398) on the reversed row list: drop
leading (originally trailing) rows while they consist of empty cells only. -/
def trimRowsRev : List (List Cell) → List (List Cell)
  | [] => []
  | row :: rest =>
    if row.all (fun cell => cell.isEmpty) then trimRowsRev rest else row :: rest

/-- The row-trimming loop (lines 396-398): pop the last row while it consists
of empty cells only. -/
def trimRows (rows : List (List Cell)) : List (List Cell) :=
  (trimRowsRev rows.reverse).reverse

/-- The cell lookup of the column-trimming condition (line 400): a missing
cell (negative or out-of-range index) and an empty cell both count as
empty. -/
def emptyAt (j : Int) (row : List Cell) : Bool :=
  match (if j < 0 then Option.none else row.get? j.toNat) with
  | Option.none => true
  | some cell => cell.isEmpty

/-- One splice(j, 1) of the column-trimming loop (line 401): removes the
cell at index j; index -1 (reached only when every row has been popped)
removes the last cell. -/
def spliceAt (j : Int) (row : List Cell) : List Cell :=
  if j < 0 then row.dropLast else row.eraseIdx j.toNat

/-- The column-trimming loop (lines 400-403): while every row is empty at
column length - 1, splice that column out of every row and decrement the
length.  The loop is entered with the non-negative maxCellCount; the length
may end at -1 (the source's loop guard length greater or equal 0 fails only
there), which is why the result is an Int. -/
def trimCols : Nat → List (List Cell) → Int × List (List Cell)
  | 0, rows =>
    if rows.all (emptyAt (-1)) then (-1, rows.map (spliceAt (-1))) else (0, rows)
  | len + 1, rows =>
    if rows.all (emptyAt (len : Int)) then trimCols len (rows.map (spliceAt (len : Int)))
    else ((len : Int) + 1, rows)

/-- Source stringify (lines 352-413), restricted to the row-major array
input form.  Because the source mutates the caller's row arrays in place
through the shared references inside allRows, the result is returned
together with the post-call contents of the caller's table: rows surviving
the row-trimming carry the column splices, popped rows are untouched.  An
empty input array is the one shape on which the source throws (destructuring
an undefined header), modelled as none. -/
def stringify (object : List (List Cell)) (options : StringifyOptions) :
    Option (List Char × List (List Cell)) :=
  match object with
  | [] => Option.none
  | header :: rows =>
    let quote := (((toCharArray options.quote).filter validQuotesAndSeparators).head?).getD ['"']
    let separator :=
      (((toCharArray options.separator).filter validQuotesAndSeparators).head?).getD [',']
    let lineEnd :=
      if options.lineEnd = ['\r', '\n'] ∨ options.lineEnd = ['\r'] then options.lineEnd
      else ['\n']
    let allRows := header :: rows
    let maxCellCount : Nat := listMax (allRows.map List.length)
    let trimmed : Int × List (List Cell) × List (List Cell) :=
      if options.trimEmpty then
        let kept := trimRows allRows
        let colTrimmed := trimCols maxCellCount kept
        (colTrimmed.1, colTrimmed.2, colTrimmed.2 ++ allRows.drop kept.length)
      else ((maxCellCount : Int), allRows, allRows)
    some
      (List.intercalate lineEnd
          (trimmed.2.1.map (toCSVLine quote separator trimmed.1))
        ++ (if options.lineEndBeforeEOF then lineEnd else []),
        trimmed.2.2)

/-! General lemmas about the tokenizer runs. -/

/-- Shorthand turning a string literal into the character list it denotes. -/
def toL (s : String) : List Char := s.toList

theorem tokenizeNL_append (xs ys : List Char) : ∀ aggregator : Aggregator,
    tokenizeNL aggregator (xs ++ ys)
      = (tokenizeNL aggregator xs).bind (fun a => tokenizeNL a ys) := by
  induction xs with
  | nil => intro aggregator; simp [tokenizeNL]
  | cons c rest ih =>
    intro aggregator
    rw [List.cons_append]
    show tokenizeNL aggregator (c :: (rest ++ ys)) = _
    rcases h : tokenizeCells aggregator c false with _ | next
    · simp [tokenizeNL, h]
    · simp [tokenizeNL, h, ih]

theorem tokenizeAll_append (xs ys : List Char) (hy : ys ≠ []) :
    ∀ aggregator : Aggregator,
    tokenizeAll aggregator (xs ++ ys)
      = (tokenizeNL aggregator xs).bind (fun a => tokenizeAll a ys) := by
  induction xs with
  | nil => intro aggregator; simp [tokenizeNL]
  | cons c rest ih =>
    intro aggregator
    rcases hr : rest ++ ys with _ | ⟨b, tail⟩
    · exact absurd (List.append_eq_nil.mp hr).2 hy
    · rw [List.cons_append, hr]
      rcases h : tokenizeCells aggregator c false with _ | next
      · simp [tokenizeAll, tokenizeNL, h]
      · have := ih next
        rw [hr] at this
        simp [tokenizeAll, tokenizeNL, h, this]

/-! Claim C1: the transition function against the spec's table. -/

/-- Follows the transition table of spec section 4.3 word for word, for
comparison with the source transition function: rows for the six pre-commit
states (the starred empty row included), nothing for finished and
discarded. -/
def specTransitionTable (s : ParserState) (rc : ReducedClass) : Option ParserState :=
  match s, rc with
  | .empty, .linefeed => some .discarded
  | .empty, .other => some .unquoted
  | .empty, .quote => some .«open»
  | .empty, .separator => some .finished
  | .empty, .space => some .unsettled
  | .empty, .quoteSeparator => some .«open»
  | .unsettled, .linefeed => some .finished
  | .unsettled, .other => some .unquoted
  | .unsettled, .quote => some .«open»
  | .unsettled, .separator => some .finished
  | .unsettled, .space => some .unsettled
  | .unsettled, .quoteSeparator => some .«open»
  | .unquoted, .linefeed => some .finished
  | .unquoted, .other => some .unquoted
  | .unquoted, .quote => some .unquoted
  | .unquoted, .separator => some .finished
  | .unquoted, .space => some .unquoted
  | .unquoted, .quoteSeparator => some .finished
  | .«open», .linefeed => some .«open»
  | .«open», .other => some .«open»
  | .«open», .quote => some .waiting
  | .«open», .separator => some .«open»
  | .«open», .space => some .«open»
  | .«open», .quoteSeparator => some .waiting
  | .waiting, .linefeed => some .finished
  | .waiting, .other => some .«open»
  | .waiting, .quote => some .«open»
  | .waiting, .separator => some .finished
  | .waiting, .space => some .closed
  | .waiting, .quoteSeparator => some .«open»
  | .closed, .linefeed => some .finished
  | .closed, .other => some .«open»
  | .closed, .quote => some .closed
  | .closed, .separator => some .finished
  | .closed, .space => some .closed
  | .closed, .quoteSeparator => some .finished
  | _, _ => Option.none

/-- C1: for every parser state among empty, unsettled, unquoted, open,
waiting and closed, and every reduced class, the tokenizer's transition
function returns exactly the successor state given by the transition table
in spec section 4.3, including the empty-state special case (linefeed goes
to discarded, everything else transitions as from unsettled). -/
theorem transition_matches_spec_table :
    ∀ (s : ParserState) (rc : ReducedClass),
      s ≠ ParserState.finished → s ≠ ParserState.discarded →
      transition s rc = specTransitionTable s rc := by
  decide

/-- Witness for C1 at the empty-state linefeed cell. -/
theorem transition_matches_spec_table_witness :
    ParserState.empty ≠ ParserState.finished
      ∧ transition ParserState.empty ReducedClass.linefeed
        = specTransitionTable ParserState.empty ReducedClass.linefeed :=
  ⟨by decide, transition_matches_spec_table ParserState.empty ReducedClass.linefeed
    (by decide) (by decide)⟩

/-! Claim C3, counterexample part: the safe-content round trip fails on a
row with a trailing empty cell, because stringify trims the empty trailing
column and the tokenizer's end-of-input discard drops a trailing empty
cell. -/

/-- C3 counterexample: the table with header row a and body row (b, empty)
has quote-, separator- and linefeed-free cells, yet under default options
parse of stringify returns the body row (b) alone, not (b, empty). -/
theorem roundtrip_fails_on_trailing_empty :
    (stringify [[toL "a"], [toL "b", toL ""]] {}).map Prod.fst = some (toL "a\nb")
      ∧ (parse (toL "a\nb") {}).map ParseResult.rows = some [[toL "b"]]
      ∧ [[toL "b"]] ≠ [[toL "b", toL ""]] :=
  ⟨by decide, by decide, by decide⟩

/-! Claim C4, counterexample part. -/

/-- C4 counterexample: with header (a) and row (x, y), the mapped row keeps
the excess cell y under the key undefined instead of dropping it; with
header (a, b) and row (x), the header entry b beyond the row's length is
absent from the mapping instead of being mapped to the empty string. -/
theorem mappedRows_excess_and_missing :
    (parse (toL "a\nx,y") {}).map ParseResult.mappedRows
        = some [[(toL "a", toL "x"), (toL "undefined", toL "y")]]
      ∧ (parse (toL "a,b\nx") {}).map ParseResult.mappedRows
        = some [[(toL "a", toL "x")]] :=
  ⟨by decide, by decide⟩

/-! Claim C5, counterexample part. -/

/-- C5 counterexample: the quote configured as the two-character string ab
is not treated as unset: it takes effect as its first character a, so
parsing aXa yields the unquoted cell X, while an actually absent quote
yields aXa. -/
theorem multichar_quote_not_unset :
    (parse (toL "aXa") { quote := .str (toL "ab") }).map ParseResult.header
        = some [toL "X"]
      ∧ (parse (toL "aXa") { quote := .str [] }).map ParseResult.header
        = some [toL "aXa"]
      ∧ toL "X" ≠ toL "aXa" :=
  ⟨by decide, by decide, by decide⟩

/-! Claim C8, counterexample part. -/

/-- C8 counterexample: with no valid quote configured, the raw cell with a
leading space does not pass through normalization unchanged: the degenerate
quoted pattern (built from the empty quote) matches every cell and strips
its leading spaces. -/
theorem absent_quote_strips_leading_spaces :
    (parse (toL " a") { quote := .str [] }).map ParseResult.header = some [toL "a"]
      ∧ toL "a" ≠ toL " a" :=
  ⟨by decide, by decide⟩

/-! Claim C9, counterexample part. -/

/-- C9 counterexample: with trimEmpty enabled (the default), stringify
splices the trimmed trailing columns out of the caller's row arrays: the
first row of the input is left as (A, B) after the call, not as its
original value (A, B, empty, empty). -/
theorem stringify_mutates_on_trim :
    (stringify [[toL "A", toL "B", toL "", toL ""], [toL "x", toL "y"]] {}).map Prod.snd
        = some [[toL "A", toL "B"], [toL "x", toL "y"]]
      ∧ [[toL "A", toL "B"], [toL "x", toL "y"]]
        ≠ [[toL "A", toL "B", toL "", toL ""], [toL "x", toL "y"]] :=
  ⟨by decide, by decide⟩

/-! Claim C2: the taint-emulation scenario of spec section 8, scenario D. -/

/-- The options of spec scenario D: quote and single separator both the
comma, taint emulation enabled, everything else default. -/
def taintOptions : ParseOptions :=
  { quote := .str [','], separators := .arr [[',']], taintQuoteSeparatorLines := true }

/-- Evaluates the tokenizer on the preprocessed scenario D input, in chunks
of ten characters so that each kernel evaluation starts from a concrete
aggregator. -/
theorem taintScenario_tokenize :
    tokenizeAll (initialAggregator [','] [[',']] taintOptions)
        (toL ",Foxes & Wolves, ,Tucans,,Birds\nof Paradise," ++ ['\n'])
      = some
        { array := [[[',', 'F', 'o', 'x', 'e', 's', ' ', '&', ' ', 'W', 'o', 'l', 'v', 'e', 's', ',', ' '], ['T', 'u', 'c', 'a', 'n', 's'], [',', 'B', 'i', 'r', 'd', 's', ',']], [['o', 'f', ' ', 'P', 'a', 'r', 'a', 'd', 'i', 's', 'e']]],
          parserState := ParserState.finished,
          quote := [','],
          separators := [[',']],
          ignoreLinefeedBeforeEOF := true,
          taintQuoteSeparatorLines := true,
          lineTaint := LineTaint.none } := by
  have e1 : toL ",Foxes & Wolves, ,Tucans,,Birds\nof Paradise," ++ ['\n']
      = [',', 'F', 'o', 'x', 'e', 's', ' ', '&', ' ', 'W']
          ++ (['o', 'l', 'v', 'e', 's', ',', ' ', ',', 'T', 'u']
          ++ (['c', 'a', 'n', 's', ',', ',', 'B', 'i', 'r', 'd']
          ++ (['s', '\n', 'o', 'f', ' ', 'P', 'a', 'r', 'a', 'd']
          ++ (['i', 's', 'e', ',']
          ++ (['\n']))))) := by decide
  have h1 : tokenizeNL
      (initialAggregator [','] [[',']] taintOptions)
      [',', 'F', 'o', 'x', 'e', 's', ' ', '&', ' ', 'W']
      = some
        { array := [[[',', 'F', 'o', 'x', 'e', 's', ' ', '&', ' ', 'W']]],
          parserState := ParserState.«open»,
          quote := [','],
          separators := [[',']],
          ignoreLinefeedBeforeEOF := true,
          taintQuoteSeparatorLines := true,
          lineTaint := LineTaint.none } := by decide
  have h2 : tokenizeNL
      { array := [[[',', 'F', 'o', 'x', 'e', 's', ' ', '&', ' ', 'W']]],
        parserState := ParserState.«open»,
        quote := [','],
        separators := [[',']],
        ignoreLinefeedBeforeEOF := true,
        taintQuoteSeparatorLines := true,
        lineTaint := LineTaint.none }
      ['o', 'l', 'v', 'e', 's', ',', ' ', ',', 'T', 'u']
      = some
        { array := [[[',', 'F', 'o', 'x', 'e', 's', ' ', '&', ' ', 'W', 'o', 'l', 'v', 'e', 's', ',', ' '], ['T', 'u']]],
          parserState := ParserState.unquoted,
          quote := [','],
          separators := [[',']],
          ignoreLinefeedBeforeEOF := true,
          taintQuoteSeparatorLines := true,
          lineTaint := LineTaint.active } := by decide
  have h3 : tokenizeNL
      { array := [[[',', 'F', 'o', 'x', 'e', 's', ' ', '&', ' ', 'W', 'o', 'l', 'v', 'e', 's', ',', ' '], ['T', 'u']]],
        parserState := ParserState.unquoted,
        quote := [','],
        separators := [[',']],
        ignoreLinefeedBeforeEOF := true,
        taintQuoteSeparatorLines := true,
        lineTaint := LineTaint.active }
      ['c', 'a', 'n', 's', ',', ',', 'B', 'i', 'r', 'd']
      = some
        { array := [[[',', 'F', 'o', 'x', 'e', 's', ' ', '&', ' ', 'W', 'o', 'l', 'v', 'e', 's', ',', ' '], ['T', 'u', 'c', 'a', 'n', 's'], [',', 'B', 'i', 'r', 'd']]],
          parserState := ParserState.«open»,
          quote := [','],
          separators := [[',']],
          ignoreLinefeedBeforeEOF := true,
          taintQuoteSeparatorLines := true,
          lineTaint := LineTaint.active } := by decide
  have h4 : tokenizeNL
      { array := [[[',', 'F', 'o', 'x', 'e', 's', ' ', '&', ' ', 'W', 'o', 'l', 'v', 'e', 's', ',', ' '], ['T', 'u', 'c', 'a', 'n', 's'], [',', 'B', 'i', 'r', 'd']]],
        parserState := ParserState.«open»,
        quote := [','],
        separators := [[',']],
        ignoreLinefeedBeforeEOF := true,
        taintQuoteSeparatorLines := true,
        lineTaint := LineTaint.active }
      ['s', '\n', 'o', 'f', ' ', 'P', 'a', 'r', 'a', 'd']
      = some
        { array := [[[',', 'F', 'o', 'x', 'e', 's', ' ', '&', ' ', 'W', 'o', 'l', 'v', 'e', 's', ',', ' '], ['T', 'u', 'c', 'a', 'n', 's'], [',', 'B', 'i', 'r', 'd', 's', ',']], [['o', 'f', ' ', 'P', 'a', 'r', 'a', 'd']]],
          parserState := ParserState.unquoted,
          quote := [','],
          separators := [[',']],
          ignoreLinefeedBeforeEOF := true,
          taintQuoteSeparatorLines := true,
          lineTaint := LineTaint.none } := by decide
  have h5 : tokenizeNL
      { array := [[[',', 'F', 'o', 'x', 'e', 's', ' ', '&', ' ', 'W', 'o', 'l', 'v', 'e', 's', ',', ' '], ['T', 'u', 'c', 'a', 'n', 's'], [',', 'B', 'i', 'r', 'd', 's', ',']], [['o', 'f', ' ', 'P', 'a', 'r', 'a', 'd']]],
        parserState := ParserState.unquoted,
        quote := [','],
        separators := [[',']],
        ignoreLinefeedBeforeEOF := true,
        taintQuoteSeparatorLines := true,
        lineTaint := LineTaint.none }
      ['i', 's', 'e', ',']
      = some
        { array := [[[',', 'F', 'o', 'x', 'e', 's', ' ', '&', ' ', 'W', 'o', 'l', 'v', 'e', 's', ',', ' '], ['T', 'u', 'c', 'a', 'n', 's'], [',', 'B', 'i', 'r', 'd', 's', ',']], [['o', 'f', ' ', 'P', 'a', 'r', 'a', 'd', 'i', 's', 'e'], []]],
          parserState := ParserState.empty,
          quote := [','],
          separators := [[',']],
          ignoreLinefeedBeforeEOF := true,
          taintQuoteSeparatorLines := true,
          lineTaint := LineTaint.none } := by decide
  have h6 : tokenizeAll
      { array := [[[',', 'F', 'o', 'x', 'e', 's', ' ', '&', ' ', 'W', 'o', 'l', 'v', 'e', 's', ',', ' '], ['T', 'u', 'c', 'a', 'n', 's'], [',', 'B', 'i', 'r', 'd', 's', ',']], [['o', 'f', ' ', 'P', 'a', 'r', 'a', 'd', 'i', 's', 'e'], []]],
        parserState := ParserState.empty,
        quote := [','],
        separators := [[',']],
        ignoreLinefeedBeforeEOF := true,
        taintQuoteSeparatorLines := true,
        lineTaint := LineTaint.none }
      ['\n']
      = some
        { array := [[[',', 'F', 'o', 'x', 'e', 's', ' ', '&', ' ', 'W', 'o', 'l', 'v', 'e', 's', ',', ' '], ['T', 'u', 'c', 'a', 'n', 's'], [',', 'B', 'i', 'r', 'd', 's', ',']], [['o', 'f', ' ', 'P', 'a', 'r', 'a', 'd', 'i', 's', 'e']]],
          parserState := ParserState.finished,
          quote := [','],
          separators := [[',']],
          ignoreLinefeedBeforeEOF := true,
          taintQuoteSeparatorLines := true,
          lineTaint := LineTaint.none } := by decide
  rw [e1, tokenizeAll_append _ _ (by simp), h1, Option.some_bind,
    tokenizeAll_append _ _ (by simp), h2, Option.some_bind,
    tokenizeAll_append _ _ (by simp), h3, Option.some_bind,
    tokenizeAll_append _ _ (by simp), h4, Option.some_bind,
    tokenizeAll_append _ _ (by simp), h5, Option.some_bind, h6]

/-- Scenario D end to end: the full parse result on the scenario input. -/
theorem taintScenario_parse :
    parse (toL ",Foxes & Wolves, ,Tucans,,Birds\nof Paradise,") taintOptions
      = some
        { header := [toL "Foxes & Wolves", toL "Tucans", toL "Birds"],
          rows := [[toL "of Paradise"]],
          mappedRows := [[(toL "Foxes & Wolves", toL "of Paradise")]] } := by
  have hpre : preprocess (toL ",Foxes & Wolves, ,Tucans,,Birds\nof Paradise,") taintOptions
      = toL ",Foxes & Wolves, ,Tucans,,Birds\nof Paradise," ++ ['\n'] := by decide
  have hq : effectiveQuote taintOptions.quote = [','] := by decide
  have hs : effectiveSeparators taintOptions.separators = [[',']] := by decide
  simp only [parse, hpre, hq, hs, taintScenario_tokenize]
  decide

/-- C2 counterexample: the claim asserts the first output row carries the
cell Foxes & Wolves with a trailing space; the default
ignoreSpacesAfterQuotedString drops the space after the closing quote, so
the actual header cell has no trailing space. -/
theorem taint_scenario_trailing_space_refuted :
    (parse (toL ",Foxes & Wolves, ,Tucans,,Birds\nof Paradise,") taintOptions).map
        ParseResult.header
      = some [toL "Foxes & Wolves", toL "Tucans", toL "Birds"]
      ∧ [toL "Foxes & Wolves", toL "Tucans", toL "Birds"]
        ≠ [toL "Foxes & Wolves ", toL "Tucans", toL "Birds"] := by
  refine ⟨?_, by decide⟩
  rw [taintScenario_parse]
  rfl

/-- C2 (amended): with quote comma, separators only the comma, taint
emulation enabled and otherwise default options, parse applied to the
scenario input produces exactly two output rows, the header
(Foxes & Wolves, Tucans, Birds) without the trailing space (dropped by the
default ignoreSpacesAfterQuotedString), and the body row (of Paradise); the
line feed inside the apparently-quoted final value appears in no cell. -/
theorem taint_scenario_actual :
    (parse (toL ",Foxes & Wolves, ,Tucans,,Birds\nof Paradise,") taintOptions).map
        (fun r => (r.header, r.rows))
      = some ([toL "Foxes & Wolves", toL "Tucans", toL "Birds"], [[toL "of Paradise"]]) := by
  rw [taintScenario_parse]
  rfl

/-! Claim C7: quoting necessity in the stringifier. -/

theorem singleton_infix_iff_mem (a : α) (l : List α) : [a] <:+: l ↔ a ∈ l := by
  constructor
  · intro h
    exact h.subset (List.mem_singleton_self a)
  · intro h
    obtain ⟨s, t, rfl⟩ := List.append_of_mem h
    exact ⟨s, t, by simp⟩

theorem length_le_length_flatMap_double (q : Char) (cell : Cell) :
    cell.length ≤ (cell.flatMap (fun c => if [c] = [q] then [q] ++ [q] else [c])).length := by
  induction cell with
  | nil => simp
  | cons c rest ih =>
    simp only [List.flatMap_cons, List.length_append, List.length_cons]
    have hone : 1 ≤ (if ([c] : List Char) = [q] then [q] ++ [q] else [c]).length := by
      by_cases h : ([c] : List Char) = [q] <;> simp [h]
    omega

/-- C7: quoteString wraps a cell in the quote character, doubling internal
quotes, exactly when the cell contains the quote character, the separator,
or a linefeed; a wrapped cell is never returned verbatim, and a cell
containing none of the three is emitted verbatim. -/
theorem quoteString_iff :
    ∀ (q s : Char) (cell : Cell),
      (('\n' ∈ cell ∨ q ∈ cell ∨ s ∈ cell) →
        quoteString [q] [s] cell
            = [q] ++ cell.flatMap (fun c => if [c] = [q] then [q] ++ [q] else [c]) ++ [q]
          ∧ quoteString [q] [s] cell ≠ cell)
      ∧ (¬ ('\n' ∈ cell ∨ q ∈ cell ∨ s ∈ cell) → quoteString [q] [s] cell = cell) := by
  intro q s cell
  have hcond : (cell.contains '\n' = true ∨ [q] <:+: cell ∨ [s] <:+: cell)
      ↔ ('\n' ∈ cell ∨ q ∈ cell ∨ s ∈ cell) := by
    simp [List.elem_iff, singleton_infix_iff_mem]
  constructor
  · intro h
    have hwrap : quoteString [q] [s] cell
        = [q] ++ cell.flatMap (fun c => if [c] = [q] then [q] ++ [q] else [c]) ++ [q] := by
      unfold quoteString
      rw [if_pos (hcond.mpr h)]
    refine ⟨hwrap, ?_⟩
    intro heq
    have hlen := congrArg List.length (hwrap.symm.trans heq)
    simp only [List.length_append, List.length_cons, List.length_nil] at hlen
    have := length_le_length_flatMap_double q cell
    omega
  · intro h
    unfold quoteString
    rw [if_neg (fun hc => h (hcond.mp hc))]

/-- Witness for C7 at a cell containing the separator. -/
theorem quoteString_iff_witness :
    quoteString ['"'] [','] (toL "a,b")
      = ['"'] ++ (toL "a,b").flatMap (fun c => if [c] = ['"'] then ['"'] ++ ['"'] else [c])
        ++ ['"'] :=
  ((quoteString_iff '"' ',' (toL "a,b")).1 (by decide)).1

/-! Claim C5, amended part: how configured quote and separator values are
filtered. -/

theorem filter_valid_singletons (s : List Char) :
    (s.map (fun c => [c])).filter validQuotesAndSeparators
      = (s.filter (fun c => c ≠ '\n' ∧ c ≠ '\r')).map (fun c => [c]) := by
  rw [List.filter_map]
  congr 1
  apply List.filter_congr
  intro c _
  simp [validQuotesAndSeparators]

theorem filter_valid_short_strings (l : List (List Char)) :
    (l.filter (fun e => e.length ≤ 1)).filter validQuotesAndSeparators
      = l.filter (fun e => e.length = 1 ∧ e ≠ ['\n'] ∧ e ≠ ['\r']) := by
  rw [List.filter_filter]
  apply List.filter_congr
  intro e _
  rcases e with _ | ⟨c, _ | ⟨d, t⟩⟩
  · simp [validQuotesAndSeparators]
  · simp [validQuotesAndSeparators]
  · simp [validQuotesAndSeparators]

/-- C5 (amended): a quote or separators value supplied as an array keeps
exactly its elements that are one-character strings other than linefeed and
carriage return; a value supplied as a string is first split into its
characters and only linefeed and carriage-return characters are then
dropped, so a multi-character string is not unset but takes effect
character by character (the quote being the first survivor); no
configuration error is ever raised (parse stays total, proved separately).
-/
theorem effective_config_filter :
    (∀ s : List Char,
        effectiveSeparators (.str s)
          = (s.filter (fun c => c ≠ '\n' ∧ c ≠ '\r')).map (fun c => [c]))
      ∧ (∀ l : List (List Char),
        effectiveSeparators (.arr l)
          = l.filter (fun e => e.length = 1 ∧ e ≠ ['\n'] ∧ e ≠ ['\r']))
      ∧ (∀ s : List Char,
        effectiveQuote (.str s)
          = ((s.filter (fun c => c ≠ '\n' ∧ c ≠ '\r')).map (fun c => [c])).head?.getD [])
      ∧ (∀ l : List (List Char),
        effectiveQuote (.arr l)
          = ((l.filter (fun e => e.length = 1 ∧ e ≠ ['\n'] ∧ e ≠ ['\r'])).head?).getD []) :=
  ⟨fun s => by
      show (((s.map (fun c => [c])).filter validQuotesAndSeparators) : List (List Char)) = _
      rw [filter_valid_singletons],
    fun l => by
      show (((l.filter (fun e => e.length ≤ 1)).filter validQuotesAndSeparators)
        : List (List Char)) = _
      rw [filter_valid_short_strings],
    fun s => by
      show (((s.map (fun c => [c])).filter validQuotesAndSeparators).head?).getD [] = _
      rw [filter_valid_singletons],
    fun l => by
      show (((l.filter (fun e => e.length ≤ 1)).filter
        validQuotesAndSeparators).head?).getD [] = _
      rw [filter_valid_short_strings]⟩

/-! Claim C8, amended part: what an absent quote actually does. -/

theorem unescapeDoubled_nil_quote : ∀ l : List Char, unescapeDoubled [] l = l := by
  intro l
  induction l with
  | nil => rfl
  | cons c rest ih =>
    cases rest with
    | nil => rfl
    | cons d t => simpa [unescapeDoubled] using ih

/-- C8 (amended): with no valid quote configured, tokenization indeed never
classifies any character as quote (and never reduces to quoteSeparator),
but quoted-value normalization does not leave cells unchanged: the
degenerate surrounded-quotes pattern built from the empty quote matches
every cell, and normalization strips each cell's leading spaces. -/
theorem absent_quote_behavior :
    (∀ (c : Char) (separators : List (List Char)),
        ReducedClass.quote ∉ classifyCharacter c [] separators
          ∧ reduceClass (classifyCharacter c [] separators) ≠ some ReducedClass.quoteSeparator)
      ∧ ∀ (ignore : Bool) (s : List Char),
        parseString [] ignore s = s.dropWhile (fun c => c = ' ') := by
  constructor
  · intro c separators
    unfold classifyCharacter
    by_cases h1 : c = '\n'
    · simp [h1, reduceClass]
    · by_cases h4 : c = ' '
      · subst h4
        cases hm : separators.contains [' '] <;> simp [h1, hm, reduceClass]
      · cases hm : separators.contains [c] <;> simp [h1, h4, hm, reduceClass]
  · intro ignore s
    unfold parseString stripSurrounded findQuoteEndRev
    simp only [List.isPrefixOf]
    cases ignore <;>
      simp [unescapeDoubled_nil_quote, List.replicate]

/-- Witness for C8's amended theorem: normalization with an absent quote
strips exactly the leading spaces. -/
theorem absent_quote_behavior_witness :
    parseString [] true (toL "  ab") = toL "ab" :=
  (absent_quote_behavior.2 true (toL "  ab")).trans (by decide)

/-! Claims C6 and C10: totality of parse and the table invariant of the
aggregator. -/

/-- The states the aggregator can be in when the tokenizer looks at a new
character: every state except the transient finished and discarded. -/
def LiveState (s : ParserState) : Prop :=
  s ≠ ParserState.finished ∧ s ≠ ParserState.discarded

/-- The table invariant: at least one row, and every row has at least one
cell (so the cell under construction exists). -/
def goodTable (aggregator : Aggregator) : Prop :=
  aggregator.array ≠ [] ∧ ∀ row ∈ aggregator.array, row ≠ []

instance (aggregator : Aggregator) : Decidable (goodTable aggregator) := by
  unfold goodTable
  exact instDecidableAnd

theorem reduce_classify_isSome (c : Char) (q : List Char) (seps : List (List Char)) :
    (reduceClass (classifyCharacter c q seps)).isSome := by
  unfold classifyCharacter
  by_cases h1 : c = '\n'
  · simp [h1, reduceClass]
  · by_cases h4 : c = ' '
    · subst h4
      by_cases h2 : ([' '] : List Char) = q <;> cases hm : seps.contains [' '] <;>
        simp [h1, h2, hm, reduceClass]
    · by_cases h2 : [c] = q <;> cases hm : seps.contains [c] <;>
        simp [h1, h2, h4, hm, reduceClass]

theorem transition_isSome_of_live (s : ParserState) (rc : ReducedClass)
    (h : LiveState s) : (transition s rc).isSome := by
  obtain ⟨h1, h2⟩ := h
  cases s <;> cases rc <;> simp_all [transition, statesTable]

theorem modLast_concat (f : α → α) (l : List α) (a : α) :
    modLast f (l ++ [a]) = l ++ [f a] := by
  induction l with
  | nil => rfl
  | cons x xs ih =>
    rcases hxa : xs ++ [a] with _ | ⟨b, rest⟩
    · exact absurd hxa (by simp)
    · rw [List.cons_append, hxa, modLast, ← hxa, ih]
      simp

theorem modLast_ne_nil (f : α → α) (l : List α) (h : l ≠ []) : modLast f l ≠ [] := by
  rcases l with _ | ⟨a, _ | ⟨b, rest⟩⟩ <;> simp_all [modLast]

theorem modLast_good (arr : List (List Cell)) (g : List Cell → List Cell)
    (hne : arr ≠ []) (hrows : ∀ row ∈ arr, row ≠ [])
    (hg : g (arr.getLastD []) ≠ []) :
    modLast g arr ≠ [] ∧ ∀ row ∈ modLast g arr, row ≠ [] := by
  rcases List.eq_nil_or_concat arr with hnil | ⟨front, last, heq⟩
  · exact absurd hnil hne
  · rw [List.concat_eq_append] at heq
    subst heq
    rw [modLast_concat]
    have hlastD : (front ++ [last]).getLastD [] = last := by simp
    rw [hlastD] at hg
    refine ⟨by simp, ?_⟩
    intro row hrow
    rcases List.mem_append.mp hrow with hf | hl
    · exact hrows row (List.mem_append_left _ hf)
    · rw [List.mem_singleton.mp hl]
      exact hg

theorem goodTable_consume (aggregator : Aggregator) (text : List Char)
    (h : goodTable aggregator) : goodTable (consume aggregator text) := by
  unfold consume goodTable
  refine modLast_good _ _ h.1 h.2 ?_
  apply modLast_ne_nil
  rcases List.eq_nil_or_concat aggregator.array with hnil | ⟨front, last, heq⟩
  · exact absurd hnil h.1
  · rw [List.concat_eq_append] at heq
    have : aggregator.array.getLastD [] = last := by rw [heq]; simp
    rw [this]
    exact h.2 last (heq ▸ List.mem_append_right _ (by simp))

theorem goodTable_discardCell (aggregator : Aggregator)
    (h : goodTable aggregator) : goodTable (discardCell aggregator) := by
  unfold discardCell goodTable
  simp only []
  split
  · rename_i hlen
    refine modLast_good _ _ h.1 h.2 ?_
    intro hdrop
    have hlen2 : (aggregator.array.getLastD []).dropLast.length
        = (aggregator.array.getLastD []).length - 1 := List.length_dropLast _
    rw [hdrop, List.length_nil] at hlen2
    omega
  · exact h

theorem goodTable_endCell (aggregator : Aggregator) (cc : List ReducedClass)
    (h : goodTable aggregator) : goodTable (endCell aggregator cc) := by
  unfold endCell goodTable
  split
  · exact modLast_good _ _ h.1 h.2 (by simp)
  · split
    · refine ⟨by simp, ?_⟩
      intro row hrow
      rcases List.mem_append.mp hrow with hf | hl
      · exact h.2 row hf
      · rw [List.mem_singleton.mp hl]
        simp
    · exact h

theorem goodTable_lineTaintActivation (aggregator : Aggregator) (rc : ReducedClass)
    (h : goodTable aggregator) : goodTable (lineTaintActivation aggregator rc) := by
  unfold lineTaintActivation
  split_ifs <;> exact h

theorem lineTaintActivation_parserState (aggregator : Aggregator) (rc : ReducedClass) :
    (lineTaintActivation aggregator rc).parserState = aggregator.parserState := by
  unfold lineTaintActivation
  split_ifs <;> rfl

theorem lineTaintActivation_quote (aggregator : Aggregator) (rc : ReducedClass) :
    (lineTaintActivation aggregator rc).quote = aggregator.quote := by
  unfold lineTaintActivation
  split_ifs <;> rfl

theorem lineTaintActivation_separators (aggregator : Aggregator) (rc : ReducedClass) :
    (lineTaintActivation aggregator rc).separators = aggregator.separators := by
  unfold lineTaintActivation
  split_ifs <;> rfl

theorem lineTaintActivation_ignore (aggregator : Aggregator) (rc : ReducedClass) :
    (lineTaintActivation aggregator rc).ignoreLinefeedBeforeEOF
      = aggregator.ignoreLinefeedBeforeEOF := by
  unfold lineTaintActivation
  split_ifs <;> rfl

theorem lineTaintActivation_taintFlag (aggregator : Aggregator) (rc : ReducedClass) :
    (lineTaintActivation aggregator rc).taintQuoteSeparatorLines
      = aggregator.taintQuoteSeparatorLines := by
  unfold lineTaintActivation
  split_ifs <;> rfl

theorem endCell_parserState (aggregator : Aggregator) (cc : List ReducedClass) :
    (endCell aggregator cc).parserState = ParserState.empty := by
  unfold endCell
  split
  · rfl
  · split <;> rfl

theorem endCell_quote (aggregator : Aggregator) (cc : List ReducedClass) :
    (endCell aggregator cc).quote = aggregator.quote := by
  unfold endCell
  split
  · rfl
  · split <;> rfl

theorem endCell_separators (aggregator : Aggregator) (cc : List ReducedClass) :
    (endCell aggregator cc).separators = aggregator.separators := by
  unfold endCell
  split
  · rfl
  · split <;> rfl

theorem endCell_ignore (aggregator : Aggregator) (cc : List ReducedClass) :
    (endCell aggregator cc).ignoreLinefeedBeforeEOF = aggregator.ignoreLinefeedBeforeEOF := by
  unfold endCell
  split
  · rfl
  · split <;> rfl

theorem endCell_taintFlag (aggregator : Aggregator) (cc : List ReducedClass) :
    (endCell aggregator cc).taintQuoteSeparatorLines
      = aggregator.taintQuoteSeparatorLines := by
  unfold endCell
  split
  · rfl
  · split <;> rfl

theorem discardCell_array_cases (aggregator : Aggregator) :
    (discardCell aggregator).array = modLast List.dropLast aggregator.array
      ∨ (discardCell aggregator).array = aggregator.array := by
  unfold discardCell
  split_ifs <;> simp

theorem lineTaintUpdate_fields (aggregator : Aggregator) (rc : ReducedClass)
    (ts : ParserState) :
    (lineTaintUpdate aggregator rc ts).array = aggregator.array
      ∧ (lineTaintUpdate aggregator rc ts).parserState = aggregator.parserState
      ∧ (lineTaintUpdate aggregator rc ts).quote = aggregator.quote
      ∧ (lineTaintUpdate aggregator rc ts).separators = aggregator.separators
      ∧ (lineTaintUpdate aggregator rc ts).ignoreLinefeedBeforeEOF
        = aggregator.ignoreLinefeedBeforeEOF
      ∧ (lineTaintUpdate aggregator rc ts).taintQuoteSeparatorLines
        = aggregator.taintQuoteSeparatorLines := by
  unfold lineTaintUpdate lineTaintActivation
  split_ifs <;> simp

theorem goodTable_array_congr (a b : Aggregator) (harr : a.array = b.array)
    (h : goodTable a) : goodTable b := by
  unfold goodTable at *
  rw [← harr]
  exact h

theorem taintAdjust_spec (aggregator : Aggregator) (rc : ReducedClass) (ts : ParserState) :
    ((taintAdjust aggregator rc ts).2 = ts
        ∨ (taintAdjust aggregator rc ts).2 = ParserState.finished)
      ∧ (taintAdjust aggregator rc ts).1.quote = aggregator.quote
      ∧ (taintAdjust aggregator rc ts).1.separators = aggregator.separators
      ∧ (taintAdjust aggregator rc ts).1.ignoreLinefeedBeforeEOF
        = aggregator.ignoreLinefeedBeforeEOF
      ∧ (taintAdjust aggregator rc ts).1.taintQuoteSeparatorLines
        = aggregator.taintQuoteSeparatorLines
      ∧ (goodTable aggregator → goodTable (taintAdjust aggregator rc ts).1) := by
  obtain ⟨ha, _, hq, hs, hi, ht⟩ := lineTaintUpdate_fields aggregator rc ts
  unfold taintAdjust
  simp only []
  split_ifs with h1 h2
  · refine ⟨Or.inr rfl, ?_, ?_, ?_, ?_, ?_⟩ <;>
      first
        | (intro hg
           exact goodTable_array_congr (consume aggregator aggregator.quote) _
             (by simp [consume, ha, hq]) (goodTable_consume _ _ hg))
        | simp [consume, hq, hs, hi, ht]
  · exact ⟨Or.inl rfl, hq, hs, hi, ht,
      fun hg => goodTable_array_congr aggregator _ ha.symm hg⟩
  · exact ⟨Or.inl rfl, rfl, rfl, rfl, rfl, fun hg => hg⟩

/-- One live non-final tokenizer step always succeeds and lands in a live
state, preserving the dialect fields. -/
theorem tokenizeCells_step (aggregator : Aggregator) (character : Char)
    (h : LiveState aggregator.parserState) :
    ∃ next, tokenizeCells aggregator character false = some next
      ∧ LiveState next.parserState
      ∧ next.quote = aggregator.quote
      ∧ next.separators = aggregator.separators
      ∧ next.ignoreLinefeedBeforeEOF = aggregator.ignoreLinefeedBeforeEOF
      ∧ next.taintQuoteSeparatorLines = aggregator.taintQuoteSeparatorLines := by
  obtain ⟨rc, hrc⟩ := Option.isSome_iff_exists.mp
    (reduce_classify_isSome character aggregator.quote aggregator.separators)
  obtain ⟨ts, hts⟩ := Option.isSome_iff_exists.mp
    (transition_isSome_of_live aggregator.parserState rc h)
  obtain ⟨hns, hq, hs, hi, ht, _⟩ := taintAdjust_spec aggregator rc ts
  rcases hta : taintAdjust aggregator rc ts with ⟨adjusted, nextState⟩
  rw [hta] at hns hq hs hi ht
  simp only [] at hns hq hs hi ht
  unfold tokenizeCells
  simp only [hrc, hts, hta]
  rcases hns with rfl | rfl <;>
    split_ifs <;>
      refine ⟨_, rfl, ?_, ?_, ?_, ?_, ?_⟩ <;>
        simp_all [LiveState, consume, endCell_parserState, endCell_quote, endCell_separators,
          endCell_ignore, endCell_taintFlag, discardCell]

/-- A live tokenizer step on the final character also always succeeds. -/
theorem tokenizeCells_last (aggregator : Aggregator) (character : Char)
    (h : LiveState aggregator.parserState) :
    ∃ next, tokenizeCells aggregator character true = some next := by
  obtain ⟨rc, hrc⟩ := Option.isSome_iff_exists.mp
    (reduce_classify_isSome character aggregator.quote aggregator.separators)
  obtain ⟨ts, hts⟩ := Option.isSome_iff_exists.mp
    (transition_isSome_of_live aggregator.parserState rc h)
  rcases hta : taintAdjust aggregator rc ts with ⟨adjusted, nextState⟩
  unfold tokenizeCells
  simp only [hrc, hts, hta]
  split_ifs <;> exact ⟨_, rfl⟩

/-- Every successful tokenizer step preserves the table invariant. -/
theorem tokenizeCells_goodTable (aggregator : Aggregator) (character : Char)
    (isLast : Bool) (next : Aggregator) (hg : goodTable aggregator)
    (hstep : tokenizeCells aggregator character isLast = some next) : goodTable next := by
  unfold tokenizeCells at hstep
  rcases hrc : reduceClass (classifyCharacter character aggregator.quote aggregator.separators)
    with _ | rc
  · simp [hrc] at hstep
  · simp only [hrc] at hstep
    rcases hts : transition aggregator.parserState rc with _ | ts
    · simp [hts] at hstep
    · simp only [hts] at hstep
      have hadj := (taintAdjust_spec aggregator rc ts).2.2.2.2.2 hg
      rcases hta : taintAdjust aggregator rc ts with ⟨adjusted, nextState⟩
      rw [hta] at hadj
      simp only [] at hadj
      simp only [hta] at hstep
      split_ifs at hstep <;>
        (have hn := Option.some.inj hstep
         subst hn) <;>
        first
          | exact hadj
          | exact goodTable_discardCell _ hadj
          | exact goodTable_endCell _ _ hadj
          | exact goodTable_endCell _ _ (goodTable_discardCell _ hadj)
          | exact goodTable_consume _ _ hadj
          | exact goodTable_consume _ _ (goodTable_discardCell _ hadj)
          | exact goodTable_consume _ _ (goodTable_consume _ _ hadj)
          | exact goodTable_consume _ _ (goodTable_consume _ _ (goodTable_discardCell _ hadj))

theorem tokenizeNL_inv (cs : List Char) : ∀ aggregator : Aggregator,
    LiveState aggregator.parserState →
    ∃ next, tokenizeNL aggregator cs = some next ∧ LiveState next.parserState := by
  induction cs with
  | nil => exact fun aggregator h => ⟨aggregator, rfl, h⟩
  | cons c rest ih =>
    intro aggregator h
    obtain ⟨next, hstep, hlive, -, -, -, -⟩ := tokenizeCells_step aggregator c h
    obtain ⟨fin, hrest, hfin⟩ := ih next hlive
    exact ⟨fin, by simp [tokenizeNL, hstep, hrest], hfin⟩

theorem tokenizeAll_total (cs : List Char) : ∀ aggregator : Aggregator,
    LiveState aggregator.parserState → ∃ next, tokenizeAll aggregator cs = some next := by
  induction cs with
  | nil => exact fun aggregator _ => ⟨aggregator, rfl⟩
  | cons c rest ih =>
    intro aggregator h
    cases rest with
    | nil => exact tokenizeCells_last aggregator c h
    | cons b tail =>
      obtain ⟨next, hstep, hlive, -, -, -, -⟩ := tokenizeCells_step aggregator c h
      obtain ⟨fin, hrest⟩ := ih next hlive
      exact ⟨fin, by simp [tokenizeAll, hstep, hrest]⟩

theorem tokenizeAll_goodTable (cs : List Char) : ∀ (aggregator next : Aggregator),
    goodTable aggregator → tokenizeAll aggregator cs = some next → goodTable next := by
  induction cs with
  | nil =>
    intro aggregator next hg h
    obtain rfl : aggregator = next := Option.some.inj h
    exact hg
  | cons c rest ih =>
    intro aggregator next hg h
    cases rest with
    | nil => exact tokenizeCells_goodTable aggregator c true next hg h
    | cons b tail =>
      rcases hstep : tokenizeCells aggregator c false with _ | mid
      · simp only [tokenizeAll, hstep] at h
        exact absurd h (by simp)
      · simp only [tokenizeAll, hstep] at h
        exact ih mid next (tokenizeCells_goodTable aggregator c false mid hg hstep) h

/-- C6: parse terminates and returns a table for every input string and
every configuration: classification always reduces to one of the six
classes, every live state has a defined successor, the tokenizer never
fails, and the resulting table is never empty. -/
theorem parse_total (csv : List Char) (options : ParseOptions) :
    (parse csv options).isSome := by
  have hlive : LiveState (initialAggregator (effectiveQuote options.quote)
      (effectiveSeparators options.separators) options).parserState := by
    constructor <;> simp [initialAggregator]
  have hinit : goodTable (initialAggregator (effectiveQuote options.quote)
      (effectiveSeparators options.separators) options) := by
    constructor <;> simp [initialAggregator]
  obtain ⟨next, htok⟩ := tokenizeAll_total (preprocess csv options) _ hlive
  have hgood := tokenizeAll_goodTable (preprocess csv options) _ next hinit htok
  unfold parse
  simp only [htok]
  rcases harr : next.array with _ | ⟨row0, rows⟩
  · exact absurd harr hgood.1
  · simp [harr]

/-- C10: the aggregator's table always contains at least one row and every
row at least one cell — in the initial aggregator, after every tokenizer
step, and hence after tokenizing any input — so the cell under construction
always exists and a discard never removes the sole cell of a row. -/
theorem tokenizer_table_invariant :
    ∀ (quote : List Char) (separators : List (List Char)) (options : ParseOptions),
      goodTable (initialAggregator quote separators options)
      ∧ (∀ (aggregator next : Aggregator) (character : Char) (isLast : Bool),
          goodTable aggregator →
          tokenizeCells aggregator character isLast = some next → goodTable next)
      ∧ (∀ (aggregator next : Aggregator) (csv : List Char),
          goodTable aggregator →
          tokenizeAll aggregator csv = some next → goodTable next) :=
  fun quote separators options =>
    ⟨by constructor <;> simp [initialAggregator],
      fun aggregator next character isLast hg h =>
        tokenizeCells_goodTable aggregator character isLast next hg h,
      fun aggregator next csv hg h => tokenizeAll_goodTable csv aggregator next hg h⟩

/-- Witness for C10: one concrete step from the initial aggregator, with
both hypotheses discharged at concrete values. -/
theorem tokenizer_table_invariant_witness :
    goodTable
      { array := [[['x']]],
        parserState := ParserState.unquoted,
        quote := ['"'],
        separators := [[',']],
        ignoreLinefeedBeforeEOF := true,
        taintQuoteSeparatorLines := false,
        lineTaint := LineTaint.none } :=
  (tokenizer_table_invariant ['"'] [[',']] {}).2.1 (initialAggregator ['"'] [[',']] {})
    _ 'x' false (by decide) (by decide)

/-! Claim C4, amended part: the exact shape of a mapped row. -/

theorem objSet_overwrite (k v w : Cell) : objSet [(k, v)] k w = [(k, w)] := by
  simp [objSet]

theorem objSet_append_left (front m : List (Cell × Cell)) (k v : Cell)
    (h : ∀ p ∈ front, p.1 ≠ k) :
    objSet (front ++ m) k v = front ++ objSet m k v := by
  unfold objSet
  have hany : front.any (fun p => p.1 = k) = false := by
    simp only [List.any_eq_false, decide_eq_true_eq]
    exact h
  rw [List.any_append, hany]
  simp only [Bool.false_or]
  split
  · rw [List.map_append]
    congr 1
    conv_rhs => rw [← List.map_id front]
    apply List.map_congr_left
    intro p hp
    simp [h p hp]
  · rw [List.append_assoc]

theorem objSet_foldl_nil_header (cs : List Cell) : ∀ (n : Nat) (v : Cell),
    (List.enumFrom n cs).foldl
        (fun m ic => objSet m (List.getD [] ic.1 undefinedKey) ic.2) [(undefinedKey, v)]
      = [(undefinedKey, cs.getLastD v)] := by
  induction cs with
  | nil => intro n v; rfl
  | cons c rest ih =>
    intro n v
    show (List.enumFrom (n+1) rest).foldl _
        (objSet [(undefinedKey, v)] (List.getD [] n undefinedKey) c) = _
    have hd : List.getD ([] : List Cell) n undefinedKey = undefinedKey := by simp
    rw [hd, objSet_overwrite, ih (n+1) c, List.getLastD_cons]

theorem objSet_foldl_shift (cs : List Cell) (a : Cell) (header : List Cell) :
    ∀ (n : Nat) (acc : List (Cell × Cell)),
    (List.enumFrom (n+1) cs).foldl
        (fun m ic => objSet m ((a :: header).getD ic.1 undefinedKey) ic.2) acc
      = (List.enumFrom n cs).foldl
          (fun m ic => objSet m (header.getD ic.1 undefinedKey) ic.2) acc := by
  induction cs with
  | nil => intro n acc; rfl
  | cons c rest ih =>
    intro n acc
    show (List.enumFrom (n+2) rest).foldl _
        (objSet acc ((a :: header).getD (n+1) undefinedKey) c) = _
    have hd : (a :: header).getD (n+1) undefinedKey = header.getD n undefinedKey := by simp
    rw [hd]
    exact ih (n+1) _

theorem objSet_foldl_prefix (keyf : Nat → Cell) (cs : List (Nat × Cell)) :
    ∀ (front m : List (Cell × Cell)),
    (∀ p ∈ front, ∀ ic ∈ cs, p.1 ≠ keyf ic.1) →
    cs.foldl (fun acc ic => objSet acc (keyf ic.1) ic.2) (front ++ m)
      = front ++ cs.foldl (fun acc ic => objSet acc (keyf ic.1) ic.2) m := by
  induction cs with
  | nil => intro front m _; simp
  | cons c rest ih =>
    intro front m h
    simp only [List.foldl_cons]
    rw [objSet_append_left front m (keyf c.1) c.2 (fun p hp => h p hp c (by simp))]
    exact ih front _ (fun p hp ic hic => h p hp ic (by simp [hic]))

theorem getD_mem_or (l : List α) (i : Nat) (d : α) : l.getD i d ∈ l ∨ l.getD i d = d := by
  rcases hg : l[i]? with _ | a
  · right
    simp [List.getD_eq_getElem?_getD, hg]
  · left
    have := List.getElem?_mem hg
    simpa [List.getD_eq_getElem?_getD, hg] using this

theorem getLastD_of_ne_nil (l : List α) (d e : α) (h : l ≠ []) :
    l.getLastD d = l.getLastD e := by
  rcases List.eq_nil_or_concat l with rfl | ⟨front, last, rfl⟩
  · exact absurd rfl h
  · simp

theorem toHashMap_eq (row : List Cell) : ∀ header : List Cell,
    header.Nodup → undefinedKey ∉ header →
    toHashMap header row
      = header.zip row
        ++ (if header.length < row.length then [(undefinedKey, row.getLastD [])] else []) := by
  induction row with
  | nil => intro header _ _; simp [toHashMap]
  | cons c cs ih =>
    intro header hnd hu
    rcases header with _ | ⟨a, hs⟩
    · show (List.enumFrom 1 cs).foldl _ (objSet [] (List.getD [] 0 undefinedKey) c) = _
      have h0 : objSet [] (List.getD ([] : List Cell) 0 undefinedKey) c
          = [(undefinedKey, c)] := by
        simp [objSet]
      rw [h0, objSet_foldl_nil_header cs 1 c]
      simp only [List.getLastD_cons]
      cases cs <;> simp
    · show (List.enumFrom 1 cs).foldl _ (objSet [] ((a :: hs).getD 0 undefinedKey) c) = _
      have h0 : objSet [] ((a :: hs).getD 0 undefinedKey) c = [(a, c)] := by
        simp [objSet]
      rw [h0, objSet_foldl_shift cs a hs 0]
      have hne : ∀ p ∈ [(a, c)], ∀ ic ∈ List.enumFrom 0 cs,
          p.1 ≠ hs.getD ic.1 undefinedKey := by
        intro p hp ic _
        rw [List.mem_singleton.mp hp]
        show a ≠ hs.getD ic.1 undefinedKey
        rcases getD_mem_or hs ic.1 undefinedKey with hmem | hdef
        · intro heq
          rw [← heq] at hmem
          exact (List.nodup_cons.mp hnd).1 hmem
        · rw [hdef]
          intro heq
          exact hu (heq ▸ List.mem_cons_self a hs)
      have hpre := objSet_foldl_prefix (fun i => hs.getD i undefinedKey) (List.enumFrom 0 cs)
        [(a, c)] [] hne
      rw [List.append_nil] at hpre
      rw [hpre]
      have hrec : (List.enumFrom 0 cs).foldl
          (fun acc ic => objSet acc (hs.getD ic.1 undefinedKey) ic.2) [] = toHashMap hs cs := rfl
      rw [hrec, ih hs (List.nodup_cons.mp hnd).2 (fun hm => hu (by simp [hm]))]
      have hif : (if hs.length < cs.length then [(undefinedKey, cs.getLastD ([] : Cell))] else [])
          = (if (a :: hs).length < (c :: cs).length
            then [(undefinedKey, (c :: cs).getLastD ([] : Cell))] else []) := by
        by_cases hlen : hs.length < cs.length
        · have hcs : cs ≠ [] := by
            intro hnil
            rw [hnil] at hlen
            simp at hlen
          rw [if_pos hlen, if_pos (by simpa using Nat.succ_lt_succ hlen),
            getLastD_of_ne_nil cs [] c hcs, List.getLastD_cons]
        · rw [if_neg hlen, if_neg (by simpa using fun h => hlen (Nat.lt_of_succ_lt_succ h))]
      rw [hif, List.zip_cons_cons]
      simp

/-- C4 (amended): a mapped row pairs each header entry with the row cell at
the same position, for exactly the positions the row covers: header
positions beyond the row's length are absent (not mapped to the empty
string), and row cells beyond the header's length are kept under the key
undefined (the stringified missing header entry), later ones overwriting
earlier ones, while remaining present in the plain row (parse builds
mappedRows from rows, leaving rows intact).  Stated for headers without
duplicates and without a literal undefined entry. -/
theorem mappedRows_characterization :
    (∀ (header row : List Cell), header.Nodup → undefinedKey ∉ header →
        toHashMap header row
          = header.zip row
            ++ (if header.length < row.length then [(undefinedKey, row.getLastD [])] else []))
      ∧ ∀ (csv : List Char) (options : ParseOptions) (r : ParseResult),
          parse csv options = some r → r.mappedRows = r.rows.map (toHashMap r.header) := by
  constructor
  · exact fun header row hnd hu => toHashMap_eq row header hnd hu
  · intro csv options r h
    unfold parse at h
    rcases htok : tokenizeAll (initialAggregator (effectiveQuote options.quote)
        (effectiveSeparators options.separators) options) (preprocess csv options) with _ | agg
    · simp only [htok] at h
      exact absurd h (by simp)
    · simp only [htok] at h
      rcases htab : agg.array.map (fun row =>
          row.map (parseString (effectiveQuote options.quote)
            options.ignoreSpacesAfterQuotedString)) with _ | ⟨h0, rows⟩
      · simp only [htab] at h
        exact absurd h (by simp)
      · simp only [htab] at h
        obtain rfl := Option.some.inj h
        rfl

/-- Witness for C4's amended theorem at a concrete header and row. -/
theorem mappedRows_characterization_witness :
    toHashMap [toL "a", toL "b"] [toL "x", toL "y", toL "z"]
      = [(toL "a", toL "x"), (toL "b", toL "y"), (toL "undefined", toL "z")] :=
  (mappedRows_characterization.1 [toL "a", toL "b"] [toL "x", toL "y", toL "z"]
    (by decide) (by decide)).trans (by decide)

/-! Claim C9, amended part: what stringify does to the caller's arrays. -/

theorem trimRowsRev_suffix (l : List (List Cell)) : trimRowsRev l <:+ l := by
  induction l with
  | nil => exact List.suffix_rfl
  | cons row rest ih =>
    unfold trimRowsRev
    split
    · exact ih.trans (List.suffix_cons row rest)
    · exact List.suffix_rfl

theorem trimRows_prefix (rows : List (List Cell)) : trimRows rows <+: rows := by
  obtain ⟨t, ht⟩ := trimRowsRev_suffix rows.reverse
  refine ⟨t.reverse, ?_⟩
  show (trimRowsRev rows.reverse).reverse ++ t.reverse = rows
  rw [← List.reverse_append, ht, List.reverse_reverse]

theorem listMax_ge (l : List Nat) : ∀ x ∈ l, x ≤ listMax l := by
  have general : ∀ (l : List Nat) (acc : Nat),
      acc ≤ l.foldl max acc ∧ ∀ x ∈ l, x ≤ l.foldl max acc := by
    intro l
    induction l with
    | nil => exact fun acc => ⟨le_refl acc, by simp⟩
    | cons y ys ih =>
      intro acc
      refine ⟨le_trans (le_max_left acc y) (ih (max acc y)).1, ?_⟩
      intro x hx
      rcases List.mem_cons.mp hx with rfl | hmem
      · exact le_trans (le_max_right acc x) (ih (max acc x)).1
      · exact (ih (max acc y)).2 x hmem
  exact (general l 0).2

theorem take_eraseIdx_of_le (c : Nat) : ∀ (r : List α) (j : Nat), c ≤ j →
    (r.eraseIdx j).take c = r.take c := by
  induction c with
  | zero => intro r j _; simp
  | succ c ih =>
    intro r j hc
    rcases r with _ | ⟨x, xs⟩
    · simp
    · rcases j with _ | j
      · omega
      · simp only [List.eraseIdx_cons_succ, List.take_succ_cons]
        rw [ih xs j (by omega)]

theorem trimCols_zero (rows : List (List Cell)) :
    trimCols 0 rows
      = if rows.all (emptyAt (-1)) then (-1, rows.map (spliceAt (-1))) else (0, rows) := rfl

theorem trimCols_succ (len : Nat) (rows : List (List Cell)) :
    trimCols (len + 1) rows
      = if rows.all (emptyAt (len : Int)) then
          trimCols len (rows.map (spliceAt (len : Int)))
        else ((len : Int) + 1, rows) := rfl

theorem trimCols_spec (len : Nat) : ∀ rows : List (List Cell),
    (∀ r ∈ rows, r.length ≤ len) →
    (trimCols len rows).2 = rows.map (fun r => r.take (trimCols len rows).1.toNat)
      ∧ (trimCols len rows).1 ≤ (len : Int) := by
  induction len with
  | zero =>
    intro rows hlen
    have hnil : ∀ r ∈ rows, r = [] := by
      intro r hr
      have := hlen r hr
      exact List.eq_nil_of_length_eq_zero (by omega)
    rw [trimCols_zero]
    split
    · simp only []
      refine ⟨?_, by omega⟩
      apply List.map_congr_left
      intro r hr
      rw [hnil r hr]
      rfl
    · simp only []
      refine ⟨?_, by omega⟩
      conv_lhs => rw [← List.map_id rows]
      apply List.map_congr_left
      intro r hr
      rw [hnil r hr]
      rfl
  | succ len ih =>
    intro rows hlen
    rw [trimCols_succ]
    split
    · have hlen2 : ∀ r ∈ rows.map (spliceAt (len : Int)), r.length ≤ len := by
        intro r hr
        obtain ⟨r0, hr0, rfl⟩ := List.mem_map.mp hr
        have h0 := hlen r0 hr0
        unfold spliceAt
        rw [if_neg (by omega)]
        by_cases hcut : ((len : Int)).toNat < r0.length
        · have herase := List.length_eraseIdx (l := r0) (i := ((len : Int)).toNat)
          rw [if_pos hcut] at herase
          omega
        · rw [List.eraseIdx_of_length_le (by omega)]
          omega
      obtain ⟨heq, hle⟩ := ih (rows.map (spliceAt (len : Int))) hlen2
      rw [heq, List.map_map]
      refine ⟨?_, le_trans hle (by omega)⟩
      apply List.map_congr_left
      intro r hr
      show (spliceAt (len : Int) r).take _ = _
      unfold spliceAt
      rw [if_neg (by omega)]
      apply take_eraseIdx_of_le
      exact Int.toNat_le_toNat hle
    · simp only []
      refine ⟨?_, by omega⟩
      conv_lhs => rw [← List.map_id rows]
      apply List.map_congr_left
      intro r hr
      have hlen3 : r.length ≤ ((len : Int) + 1).toNat := by
        have := hlen r hr
        omega
      rw [List.take_of_length_le hlen3]
      rfl

/-- C9 (amended): stringify always succeeds on a nonempty row-major input
and returns, besides the output text, the post-call contents of the
caller's table: when trimEmpty is disabled the table is unchanged; when
enabled, the rows surviving the row-trimming (a prefix of the table) are
truncated to the post-trim column count, and the trimmed-away trailing rows
are left untouched.  The claim's assertion that the input is always left
unchanged fails exactly because of these splices. -/
theorem stringify_frame (object : List (List Cell)) (options : StringifyOptions)
    (h : object ≠ []) :
    ∃ out post, stringify object options = some (out, post)
      ∧ (options.trimEmpty = false → post = object)
      ∧ ∃ k c, post = (object.take k).map (fun row => row.take c) ++ object.drop k := by
  rcases object with _ | ⟨header, rows⟩
  · exact absurd rfl h
  · unfold stringify
    simp only []
    by_cases ht : options.trimEmpty
    · rw [if_pos ht]
      refine ⟨_, _, rfl, fun hfalse => absurd ht (by simp [hfalse]), ?_⟩
      refine ⟨(trimRows (header :: rows)).length,
        (trimCols (listMax ((header :: rows).map List.length))
          (trimRows (header :: rows))).1.toNat, ?_⟩
      have hpref := trimRows_prefix (header :: rows)
      have htake := List.prefix_iff_eq_take.mp hpref
      have hmem : ∀ r ∈ trimRows (header :: rows),
          r.length ≤ listMax ((header :: rows).map List.length) := by
        intro r hr
        exact listMax_ge _ _ (List.mem_map_of_mem List.length (hpref.subset hr))
      have hspec := trimCols_spec (listMax ((header :: rows).map List.length))
        (trimRows (header :: rows)) hmem
      rw [hspec.1, ← htake]
    · rw [if_neg ht]
      refine ⟨_, _, rfl, fun _ => rfl, (header :: rows).length,
        listMax ((header :: rows).map List.length), ?_⟩
      rw [List.take_of_length_le (le_refl _), List.drop_of_length_le (le_refl _),
        List.append_nil]
      conv_lhs => rw [← List.map_id (header :: rows)]
      apply List.map_congr_left
      intro r hr
      rw [List.take_of_length_le (listMax_ge _ _ (List.mem_map_of_mem List.length hr))]
      rfl

/-- Witness for C9's amended theorem at a concrete one-row table. -/
theorem stringify_frame_witness :
    ∃ out post, stringify [[toL "a"]] {} = some (out, post)
      ∧ (({} : StringifyOptions).trimEmpty = false → post = [[toL "a"]])
      ∧ ∃ k c, post = ([[toL "a"]].take k).map (fun row => row.take c)
          ++ [[toL "a"]].drop k :=
  stringify_frame [[toL "a"]] {} (by decide)

/-! Claim C3, amended part: the parse-stringify round trip on safe tables. -/

/-- A character that needs no quoting and survives preprocessing unchanged
under the default dialect: not the quote, not the separator, not a line
break, not NUL. -/
def SafeChar (c : Char) : Prop :=
  c ≠ '"' ∧ c ≠ ',' ∧ c ≠ '\n' ∧ c ≠ '\r' ∧ c ≠ '\x00'

instance (c : Char) : Decidable (SafeChar c) := by
  unfold SafeChar
  infer_instance

/-- An aggregator running with the default dialect and the taint emulation
off. -/
def DefaultAgg (agg : Aggregator) : Prop :=
  agg.quote = ['"'] ∧ agg.separators = [[',']] ∧ agg.taintQuoteSeparatorLines = false

/-- The two states the tokenizer inhabits strictly inside a safe cell. -/
def MidState (s : ParserState) : Prop :=
  s = ParserState.unsettled ∨ s = ParserState.unquoted

/-- The states the tokenizer inhabits at or after a safe cell boundary. -/
def CellState (s : ParserState) : Prop :=
  s = ParserState.empty ∨ MidState s

theorem taintAdjust_off (agg : Aggregator) (rc : ReducedClass) (ts : ParserState)
    (h : agg.taintQuoteSeparatorLines = false) : taintAdjust agg rc ts = (agg, ts) := by
  unfold taintAdjust
  rw [if_neg (by simp [h])]

theorem classify_safe (c : Char) (hc : SafeChar c) :
    classifyCharacter c ['"'] [[',']]
      = if c = ' ' then [ReducedClass.space] else [ReducedClass.other] := by
  obtain ⟨h1, h2, h3, -, -⟩ := hc
  unfold classifyCharacter
  rw [if_neg h3]
  by_cases hsp : c = ' ' <;> simp [hsp, h1, h2]

/-- Evaluates one non-final tokenizer step, taint off, when the transition
lands in a state that neither discards nor finishes: the character is
consumed. -/
theorem tokenizeCells_eval_consume (agg : Aggregator) (c : Char) (rc : ReducedClass)
    (ts : ParserState)
    (hcl : reduceClass (classifyCharacter c agg.quote agg.separators) = some rc)
    (htr : transition agg.parserState rc = some ts)
    (ht : agg.taintQuoteSeparatorLines = false)
    (h1 : ts ≠ ParserState.discarded) (h2 : ts ≠ ParserState.finished) :
    tokenizeCells agg c false = some (consume { agg with parserState := ts } [c]) := by
  unfold tokenizeCells
  simp only [hcl, htr, taintAdjust_off agg rc ts ht]
  simp [h1, h2]

/-- Evaluates one non-final tokenizer step, taint off, when the transition
finishes the cell. -/
theorem tokenizeCells_eval_finished (agg : Aggregator) (c : Char) (rc : ReducedClass)
    (hcl : reduceClass (classifyCharacter c agg.quote agg.separators) = some rc)
    (htr : transition agg.parserState rc = some ParserState.finished)
    (ht : agg.taintQuoteSeparatorLines = false) :
    tokenizeCells agg c false
      = some (endCell { agg with parserState := ParserState.finished }
          (classifyCharacter c agg.quote agg.separators)) := by
  unfold tokenizeCells
  simp only [hcl, htr, taintAdjust_off agg rc ParserState.finished ht]
  simp

/-- Evaluates the final tokenizer step, taint off, when the transition lands
in a state that is neither discarded nor an open quote: the aggregator only
records the new state. -/
theorem tokenizeCells_eval_last (agg : Aggregator) (c : Char) (rc : ReducedClass)
    (ts : ParserState)
    (hcl : reduceClass (classifyCharacter c agg.quote agg.separators) = some rc)
    (htr : transition agg.parserState rc = some ts)
    (ht : agg.taintQuoteSeparatorLines = false)
    (h1 : ts ≠ ParserState.discarded) (h2 : ts ≠ ParserState.«open») :
    tokenizeCells agg c true = some { agg with parserState := ts } := by
  unfold tokenizeCells
  simp only [hcl, htr, taintAdjust_off agg rc ts ht]
  simp [h1, h2]

/-- One safe character inside a cell is consumed, leaving the tokenizer
unsettled (only spaces seen so far) or unquoted. -/
theorem step_safe (agg : Aggregator) (c : Char) (hd : DefaultAgg agg)
    (hst : CellState agg.parserState) (hc : SafeChar c) :
    ∃ s', MidState s'
      ∧ tokenizeCells agg c false
        = some { agg with
            array := modLast (modLast (fun x => x ++ [c])) agg.array,
            parserState := s' } := by
  obtain ⟨hq, hsep, ht⟩ := hd
  have hcl : classifyCharacter c agg.quote agg.separators
      = if c = ' ' then [ReducedClass.space] else [ReducedClass.other] := by
    rw [hq, hsep]
    exact classify_safe c hc
  unfold CellState MidState at hst
  by_cases hsp : c = ' '
  · rw [if_pos hsp] at hcl
    have hrc : reduceClass (classifyCharacter c agg.quote agg.separators)
        = some ReducedClass.space := by rw [hcl]; rfl
    rcases hst with h | h | h
    · refine ⟨ParserState.unsettled, Or.inl rfl, ?_⟩
      rw [tokenizeCells_eval_consume agg c ReducedClass.space ParserState.unsettled hrc
        (by rw [h]; decide) ht (by decide) (by decide)]
      rfl
    · refine ⟨ParserState.unsettled, Or.inl rfl, ?_⟩
      rw [tokenizeCells_eval_consume agg c ReducedClass.space ParserState.unsettled hrc
        (by rw [h]; decide) ht (by decide) (by decide)]
      rfl
    · refine ⟨ParserState.unquoted, Or.inr rfl, ?_⟩
      rw [tokenizeCells_eval_consume agg c ReducedClass.space ParserState.unquoted hrc
        (by rw [h]; decide) ht (by decide) (by decide)]
      rfl
  · rw [if_neg hsp] at hcl
    have hrc : reduceClass (classifyCharacter c agg.quote agg.separators)
        = some ReducedClass.other := by rw [hcl]; rfl
    refine ⟨ParserState.unquoted, Or.inr rfl, ?_⟩
    rw [tokenizeCells_eval_consume agg c ReducedClass.other ParserState.unquoted hrc
      (by rcases hst with h | h | h <;> rw [h] <;> decide) ht (by decide) (by decide)]
    rfl

/-- The separator after a safe cell ends the cell: a fresh empty cell is
appended to the current row and the state returns to empty. -/
theorem step_sep (agg : Aggregator) (hd : DefaultAgg agg)
    (hst : CellState agg.parserState) :
    tokenizeCells agg ',' false
      = some { agg with
          array := modLast (fun row => row ++ [([] : Cell)]) agg.array,
          parserState := ParserState.empty } := by
  obtain ⟨hq, hsep, ht⟩ := hd
  have hcl : classifyCharacter ',' agg.quote agg.separators = [ReducedClass.separator] := by
    rw [hq, hsep]
    decide
  have hrc : reduceClass (classifyCharacter ',' agg.quote agg.separators)
      = some ReducedClass.separator := by rw [hcl]; rfl
  have htr : transition agg.parserState ReducedClass.separator
      = some ParserState.finished := by
    unfold CellState MidState at hst
    rcases hst with h | h | h <;> rw [h] <;> decide
  rw [tokenizeCells_eval_finished agg ',' ReducedClass.separator hrc htr ht, hcl]
  rfl

/-- A linefeed after a safe cell (states unsettled or unquoted) ends the
row: a fresh row with one empty cell is appended.  Stated for an untainted
aggregator so the row-taint reset is invisible. -/
theorem step_lf_mid (agg : Aggregator) (ht : agg.taintQuoteSeparatorLines = false)
    (hlt : agg.lineTaint = LineTaint.none) (hst : MidState agg.parserState) :
    tokenizeCells agg '\n' false
      = some { agg with
          array := agg.array ++ [[([] : Cell)]],
          parserState := ParserState.empty } := by
  have hcl : classifyCharacter '\n' agg.quote agg.separators = [ReducedClass.linefeed] := by
    unfold classifyCharacter
    rw [if_pos rfl]
  have hrc : reduceClass (classifyCharacter '\n' agg.quote agg.separators)
      = some ReducedClass.linefeed := by rw [hcl]; rfl
  have htr : transition agg.parserState ReducedClass.linefeed
      = some ParserState.finished := by
    unfold MidState at hst
    rcases hst with h | h <;> rw [h] <;> decide
  rw [tokenizeCells_eval_finished agg '\n' ReducedClass.linefeed hrc htr ht, hcl, hlt]
  rfl

/-- The final linefeed of the preprocessed text merely finishes the state:
nothing is consumed or appended. -/
theorem step_lf_last (agg : Aggregator) (ht : agg.taintQuoteSeparatorLines = false)
    (hst : MidState agg.parserState) :
    tokenizeCells agg '\n' true
      = some { agg with parserState := ParserState.finished } := by
  have hcl : classifyCharacter '\n' agg.quote agg.separators = [ReducedClass.linefeed] := by
    unfold classifyCharacter
    rw [if_pos rfl]
  have hrc : reduceClass (classifyCharacter '\n' agg.quote agg.separators)
      = some ReducedClass.linefeed := by rw [hcl]; rfl
  have htr : transition agg.parserState ReducedClass.linefeed
      = some ParserState.finished := by
    unfold MidState at hst
    rcases hst with h | h <;> rw [h] <;> decide
  exact tokenizeCells_eval_last agg '\n' ReducedClass.linefeed ParserState.finished hrc htr ht
    (by decide) (by decide)

theorem intercalate_one (sep x : List Char) : List.intercalate sep [x] = x := by
  simp [List.intercalate]

theorem intercalate_two (sep x y : List Char) (rest : List (List Char)) :
    List.intercalate sep (x :: y :: rest) = x ++ sep ++ List.intercalate sep (y :: rest) := by
  simp [List.intercalate, List.intersperse]

/-- Feeding the safe characters of one cell to the tokenizer appends them to
the cell under construction. -/
theorem tokenize_safe_cell (cs : List Char) : ∀ (agg : Aggregator)
    (B : List (List Cell)) (r : List Cell) (x : Cell),
    DefaultAgg agg → CellState agg.parserState →
    agg.array = B ++ [r ++ [x]] → (∀ c ∈ cs, SafeChar c) →
    ∃ s', CellState s' ∧ (cs ≠ [] ∨ MidState agg.parserState → MidState s')
      ∧ tokenizeNL agg cs
        = some { agg with array := B ++ [r ++ [x ++ cs]], parserState := s' } := by
  induction cs with
  | nil =>
    intro agg B r x hd hst harr hsafe
    refine ⟨agg.parserState, hst, fun h => h.elim (fun hne => absurd rfl hne) id, ?_⟩
    rw [List.append_nil, ← harr]
    rfl
  | cons c cs ih =>
    intro agg B r x hd hst harr hsafe
    obtain ⟨s1, hs1, hstep⟩ := step_safe agg c hd hst (hsafe c (List.mem_cons_self c cs))
    have harr1 : modLast (modLast (fun y => y ++ [c])) agg.array = B ++ [r ++ [x ++ [c]]] := by
      rw [harr, modLast_concat, modLast_concat]
    obtain ⟨s', hcs', hmid, hrun⟩ :=
      ih { agg with
           array := modLast (modLast (fun y => y ++ [c])) agg.array, parserState := s1 }
        B r (x ++ [c]) hd (Or.inr hs1) harr1
        (fun d hd2 => hsafe d (List.mem_cons_of_mem c hd2))
    refine ⟨s', hcs', fun _ => hmid (Or.inr hs1), ?_⟩
    simp only [tokenizeNL, hstep, hrun]
    rw [List.append_assoc, List.singleton_append]

/-- Feeding one safe row (cells joined by the separator) to the tokenizer
appends its cells to the current row of the table. -/
theorem tokenize_safe_row (cells : List Cell) : ∀ (agg : Aggregator)
    (B : List (List Cell)) (r : List Cell),
    DefaultAgg agg → CellState agg.parserState →
    agg.array = B ++ [r ++ [([] : Cell)]] →
    cells ≠ [] → (∀ cell ∈ cells, cell ≠ [] ∧ ∀ c ∈ cell, SafeChar c) →
    ∃ s', MidState s'
      ∧ tokenizeNL agg (List.intercalate [','] cells)
        = some { agg with array := B ++ [r ++ cells], parserState := s' } := by
  induction cells with
  | nil => intro agg B r _ _ _ hne _; exact absurd rfl hne
  | cons x cells ih =>
    intro agg B r hd hst harr _ hsafe
    have hx := hsafe x (List.mem_cons_self x cells)
    rcases cells with _ | ⟨y, rest⟩
    · rw [intercalate_one]
      obtain ⟨s', -, hmid, hrun⟩ := tokenize_safe_cell x agg B r [] hd hst harr
        (fun c hc => hx.2 c hc)
      refine ⟨s', hmid (Or.inl hx.1), ?_⟩
      rw [hrun, List.nil_append]
    · rw [intercalate_two, List.append_assoc, List.singleton_append]
      obtain ⟨s1, -, hmid1, hrun1⟩ := tokenize_safe_cell x agg B r [] hd hst harr
        (fun c hc => hx.2 c hc)
      have hm1 : MidState s1 := hmid1 (Or.inl hx.1)
      have hstep2 := step_sep
        { agg with array := B ++ [r ++ [([] : Cell) ++ x]], parserState := s1 }
        hd (Or.inr hm1)
      have harr2 : modLast (fun row => row ++ [([] : Cell)]) (B ++ [r ++ [([] : Cell) ++ x]])
          = B ++ [(r ++ [x]) ++ [([] : Cell)]] := by
        rw [List.nil_append, modLast_concat]
      obtain ⟨s', hmid, hrun⟩ :=
        ih { agg with
             array := B ++ [(r ++ [x]) ++ [([] : Cell)]], parserState := ParserState.empty }
          B (r ++ [x]) hd (Or.inl rfl) rfl (by simp)
          (fun cell hc => hsafe cell (List.mem_cons_of_mem x hc))
      refine ⟨s', hmid, ?_⟩
      rw [tokenizeNL_append, hrun1, Option.some_bind]
      simp only [tokenizeNL, hstep2, harr2, hrun]
      rw [List.append_assoc, List.singleton_append]

/-- Feeding a safe table (rows joined by linefeeds) to the tokenizer appends
its rows to the table. -/
theorem tokenize_safe_table (rows : List (List Cell)) : ∀ (agg : Aggregator)
    (B : List (List Cell)),
    DefaultAgg agg → agg.parserState = ParserState.empty →
    agg.lineTaint = LineTaint.none →
    agg.array = B ++ [[([] : Cell)]] →
    rows ≠ [] →
    (∀ row ∈ rows, row ≠ [] ∧ ∀ cell ∈ row, cell ≠ [] ∧ ∀ c ∈ cell, SafeChar c) →
    ∃ s', MidState s'
      ∧ tokenizeNL agg (List.intercalate ['\n'] (rows.map (List.intercalate [','])))
        = some { agg with array := B ++ rows, parserState := s' } := by
  induction rows with
  | nil => intro agg B _ _ _ _ hne _; exact absurd rfl hne
  | cons row rows ih =>
    intro agg B hd hst hlt harr _ hsafe
    have hrow := hsafe row (List.mem_cons_self row rows)
    rcases rows with _ | ⟨row2, rest⟩
    · rw [List.map_cons, List.map_nil, intercalate_one]
      obtain ⟨s', hmid, hrun⟩ := tokenize_safe_row row agg B [] hd (Or.inl hst)
        harr hrow.1 hrow.2
      exact ⟨s', hmid, hrun⟩
    · rw [List.map_cons, List.map_cons, intercalate_two, List.append_assoc,
        List.singleton_append]
      obtain ⟨s1, hm1, hrun1⟩ := tokenize_safe_row row agg B [] hd (Or.inl hst)
        harr hrow.1 hrow.2
      have hstep2 := step_lf_mid
        { agg with array := B ++ [([] : List Cell) ++ row], parserState := s1 }
        hd.2.2 hlt hm1
      obtain ⟨s', hmid, hrun⟩ :=
        ih { agg with
             array := (B ++ [([] : List Cell) ++ row]) ++ [[([] : Cell)]]
             parserState := ParserState.empty }
          (B ++ [row]) hd rfl hlt rfl (by simp)
          (fun r hr => hsafe r (List.mem_cons_of_mem row hr))
      rw [List.map_cons] at hrun
      refine ⟨s', hmid, ?_⟩
      rw [tokenizeNL_append, hrun1, Option.some_bind]
      simp only [tokenizeNL, hstep2, hrun]
      rw [List.append_assoc, List.singleton_append]

/-- Safe cells need no quoting, irrespective of length. -/
theorem quoteString_safe (cell : Cell) (h1 : '\n' ∉ cell) (h2 : '"' ∉ cell)
    (h3 : ',' ∉ cell) : quoteString ['"'] [','] cell = cell := by
  have hcond : ¬(cell.contains '\n' ∨ (['"'] : List Char) <:+: cell
      ∨ ([','] : List Char) <:+: cell) := by
    intro h
    rcases h with h | h | h
    · exact h1 (by simpa using h)
    · exact h2 ((singleton_infix_iff_mem '"' cell).mp h)
    · exact h3 ((singleton_infix_iff_mem ',' cell).mp h)
  simp only [quoteString]
  rw [if_neg hcond]

theorem map_getD_range (l : List Cell) :
    (List.range l.length).map (fun i => l.getD i []) = l := by
  induction l with
  | nil => rfl
  | cons x xs ih =>
    rw [List.length_cons, List.range_succ_eq_map, List.map_cons, List.map_map]
    congr 1

/-- On a row whose length equals the cell count and whose cells are safe,
toCSVLine is the plain comma join. -/
theorem toCSVLine_safe (row : List Cell) (w : Nat) (hlen : row.length = w)
    (hsafe : ∀ cell ∈ row, ∀ c ∈ cell, SafeChar c) :
    toCSVLine ['"'] [','] ((w : Nat) : Int) row = List.intercalate [','] row := by
  subst hlen
  unfold toCSVLine
  rw [Int.toNat_natCast, map_getD_range]
  congr 1
  conv_rhs => rw [← List.map_id row]
  apply List.map_congr_left
  intro cell hc
  rw [quoteString_safe cell (fun hm => (hsafe cell hc '\n' hm).2.2.1 rfl)
    (fun hm => (hsafe cell hc '"' hm).1 rfl) (fun hm => (hsafe cell hc ',' hm).2.1 rfl)]
  rfl

theorem foldl_max_const (w : Nat) : ∀ (l : List Nat) (acc : Nat),
    l ≠ [] → (∀ x ∈ l, x = w) → l.foldl max acc = max acc w := by
  intro l
  induction l with
  | nil => intro acc h _; exact absurd rfl h
  | cons y ys ih =>
    intro acc _ hall
    rcases ys with _ | ⟨z, zs⟩
    · rw [List.foldl_cons, List.foldl_nil, hall y (by simp)]
    · rw [List.foldl_cons, ih (max acc y) (by simp) (fun x hx => hall x (by simp [hx])),
        hall y (by simp), max_assoc, max_self]

theorem listMax_of_const (l : List Nat) (w : Nat) (hne : l ≠ [])
    (h : ∀ x ∈ l, x = w) : listMax l = w := by
  unfold listMax
  rw [foldl_max_const w l 0 hne h]
  exact Nat.zero_max w

theorem all_isEmpty_false (row : List Cell) (cell : Cell) (hc : cell ∈ row)
    (hne : cell ≠ []) : row.all (fun c => c.isEmpty) = false := by
  rw [Bool.eq_false_iff]
  intro hall
  rw [List.all_eq_true] at hall
  exact hne (by simpa using hall cell hc)

/-- Row trimming is the identity when the last row has a nonempty cell. -/
theorem trimRows_of_full (rows : List (List Cell)) (front : List (List Cell))
    (last : List Cell) (heq : rows = front ++ [last])
    (h : last.all (fun c => c.isEmpty) = false) : trimRows rows = rows := by
  subst heq
  unfold trimRows
  rw [List.reverse_append, List.reverse_singleton, List.singleton_append]
  have hstep : trimRowsRev (last :: front.reverse) = last :: front.reverse := by
    unfold trimRowsRev
    rw [h]
    rfl
  rw [hstep, List.reverse_cons, List.reverse_reverse]

/-- Column trimming stops immediately when some row has a nonempty cell in
the last column. -/
theorem trimCols_of_full (w : Nat) (hw : 0 < w) (rows : List (List Cell))
    (row : List Cell) (hmem : row ∈ rows) (hlen : row.length = w)
    (hcells : ∀ cell ∈ row, cell ≠ []) :
    trimCols w rows = ((w : Int), rows) := by
  have hsplit : ∃ len, w = len + 1 := ⟨w - 1, by omega⟩
  obtain ⟨len, rfl⟩ := hsplit
  have hrow : emptyAt ((len : Int)) row = false := by
    unfold emptyAt
    rw [if_neg (not_lt.mpr (Int.natCast_nonneg len)), Int.toNat_natCast]
    have hlt : len < row.length := by omega
    rw [List.get?_eq_get hlt]
    show (row.get ⟨len, hlt⟩).isEmpty = false
    rw [Bool.eq_false_iff]
    intro hemp
    exact hcells _ (List.get_mem row len hlt) (by simpa using hemp)
  have hallf : rows.all (emptyAt ((len : Int))) = false := by
    rw [Bool.eq_false_iff]
    intro hall
    rw [List.all_eq_true] at hall
    have hfalse := hall row hmem
    rw [hrow] at hfalse
    exact absurd hfalse (by simp)
  rw [trimCols_succ, if_neg (by rw [hallf]; simp)]
  have hcast : ((len : Int) + 1) = (((len + 1 : Nat) : Int)) := by push_cast; ring
  rw [hcast]

/-- On a nonempty rectangular table of nonempty safe cells, stringify under
default options performs no trimming and no quoting: the output is the rows
joined by commas and linefeeds, and the caller's table is left unchanged. -/
theorem stringify_safe_table (T : List (List Cell)) (w : Nat) (hT : T ≠ []) (hw : 0 < w)
    (hrect : ∀ row ∈ T, row.length = w)
    (hcells : ∀ row ∈ T, ∀ cell ∈ row, cell ≠ [] ∧ ∀ c ∈ cell, SafeChar c) :
    stringify T {} = some (List.intercalate ['\n'] (T.map (List.intercalate [','])), T) := by
  rcases T with _ | ⟨header, rows⟩
  · exact absurd rfl hT
  have hQ : (((toCharArray ({} : StringifyOptions).quote).filter
      validQuotesAndSeparators).head?).getD ['"'] = ['"'] := rfl
  have hS : (((toCharArray ({} : StringifyOptions).separator).filter
      validQuotesAndSeparators).head?).getD [','] = [','] := rfl
  have hLE : (if ({} : StringifyOptions).lineEnd = ['\r', '\n']
      ∨ ({} : StringifyOptions).lineEnd = ['\r'] then ({} : StringifyOptions).lineEnd
      else ['\n']) = ['\n'] := rfl
  have hTE : ({} : StringifyOptions).trimEmpty = true := rfl
  have hmax : listMax ((header :: rows).map List.length) = w := by
    apply listMax_of_const _ w (by simp)
    intro x hx
    obtain ⟨row, hrow, rfl⟩ := List.mem_map.mp hx
    exact hrect row hrow
  have hkept : trimRows (header :: rows) = header :: rows := by
    rcases List.eq_nil_or_concat (header :: rows) with hnil | ⟨front, last, heq⟩
    · exact absurd hnil (by simp)
    · rw [List.concat_eq_append] at heq
      have hmem : last ∈ header :: rows := by
        rw [heq]
        exact List.mem_append.mpr (Or.inr (List.mem_singleton_self last))
      have hlast_ne : last ≠ [] := by
        intro hnil
        have hl := hrect last hmem
        rw [hnil] at hl
        simp at hl
        omega
      obtain ⟨c0, hc0⟩ := List.exists_mem_of_ne_nil last hlast_ne
      exact trimRows_of_full _ front last heq
        (all_isEmpty_false last c0 hc0 (hcells last hmem c0 hc0).1)
  have htrim : trimCols w (header :: rows) = ((w : Int), header :: rows) :=
    trimCols_of_full w hw _ header (by simp) (hrect header (by simp))
      (fun cell hc => (hcells header (by simp) cell hc).1)
  have hmap : (header :: rows).map (toCSVLine ['"'] [','] ((w : Nat) : Int))
      = (header :: rows).map (List.intercalate [',']) := by
    apply List.map_congr_left
    intro row hrow
    exact toCSVLine_safe row w (hrect row hrow) (fun cell hc => (hcells row hrow cell hc).2)
  simp only [stringify, hQ, hS, hLE, hTE, eq_self_iff_true, if_true, hmax, hkept, htrim,
    List.drop_length, List.append_nil, hmap]
  rw [show (if ({} : StringifyOptions).lineEndBeforeEOF = true then (['\n'] : List Char)
    else []) = ([] : List Char) from rfl, List.append_nil]

theorem normalizeStrict_of_no_cr : ∀ l : List Char, '\r' ∉ l → normalizeStrict l = l := by
  intro l
  induction l with
  | nil => intro _; rfl
  | cons c rest ih =>
    intro h
    have hc : c ≠ '\r' := fun hh => h (hh ▸ List.mem_cons_self c rest)
    have hr : '\r' ∉ rest := fun hh => h (List.mem_cons_of_mem c hh)
    rcases rest with _ | ⟨d, rest2⟩
    · show normalizeStrict [c] = [c]
      unfold normalizeStrict
      rw [if_neg hc]
    · show normalizeStrict (c :: d :: rest2) = c :: d :: rest2
      unfold normalizeStrict
      rw [if_neg hc, ih hr]

theorem filter_no_nul (l : List Char) (h : '\x00' ∉ l) :
    l.filter (fun c => c ≠ '\x00') = l := by
  apply List.filter_eq_self.mpr
  intro c hc
  have hcne : c ≠ '\x00' := fun heq => h (heq ▸ hc)
  simpa using hcne

/-- Preprocessing a NUL-free text without carriage returns that does not end
in a linefeed just appends the final linefeed. -/
theorem preprocess_safe (out : List Char) (hcr : '\r' ∉ out) (hnul : '\x00' ∉ out)
    (hlast : out.getLast? ≠ some '\n') :
    preprocess out {} = out ++ ['\n'] := by
  unfold preprocess
  simp only []
  rw [if_pos trivial, normalizeStrict_of_no_cr out hcr,
    if_neg (fun hand => hlast hand.2)]
  apply filter_no_nul
  intro hmem
  rcases List.mem_append.mp hmem with h1 | h2
  · exact hnul h1
  · simp at h2

/-- Every character of an intercalation comes from the separator or from one
of the pieces. -/
theorem intercalate_mem_cases (c : Char) (sep : List Char) : ∀ ls : List (List Char),
    c ∈ List.intercalate sep ls → c ∈ sep ∨ ∃ l ∈ ls, c ∈ l := by
  intro ls
  induction ls with
  | nil =>
    intro h
    rw [show List.intercalate sep ([] : List (List Char)) = [] from rfl] at h
    exact absurd h (List.not_mem_nil c)
  | cons x ls ih =>
    rcases ls with _ | ⟨y, rest⟩
    · intro h
      rw [intercalate_one] at h
      exact Or.inr ⟨x, by simp, h⟩
    · intro h
      rw [intercalate_two] at h
      rcases List.mem_append.mp h with h1 | h2
      · rcases List.mem_append.mp h1 with hx | hs
        · exact Or.inr ⟨x, by simp, hx⟩
        · exact Or.inl hs
      · rcases ih h2 with hs | ⟨l, hl, hcl⟩
        · exact Or.inl hs
        · exact Or.inr ⟨l, by simp [hl], hcl⟩

/-- An intercalation whose final piece is nonempty is nonempty and ends with
that piece's last character. -/
theorem intercalate_getLast (sep : List Char) : ∀ (ls : List (List Char)) (lastl : List Char),
    ls.getLast? = some lastl → lastl ≠ [] →
    List.intercalate sep ls ≠ []
      ∧ (List.intercalate sep ls).getLast? = lastl.getLast? := by
  intro ls
  induction ls with
  | nil => intro lastl h _; exact absurd h (by simp)
  | cons x ls ih =>
    intro lastl h hne
    rcases ls with _ | ⟨y, rest⟩
    · obtain rfl : x = lastl := Option.some.inj h
      rw [intercalate_one]
      exact ⟨hne, rfl⟩
    · rw [List.getLast?_cons_cons] at h
      obtain ⟨hne2, hlast2⟩ := ih lastl h hne
      rw [intercalate_two]
      refine ⟨?_, ?_⟩
      · intro hnil
        exact hne2 (List.append_eq_nil.mp hnil).2
      · rw [List.getLast?_append, hlast2, List.getLast?_eq_getLast lastl hne]
        rfl

theorem stripSurrounded_safe (cell : Cell) (h : '"' ∉ cell) :
    stripSurrounded ['"'] cell = Option.none := by
  unfold stripSurrounded
  simp only []
  rw [if_neg ?hp]
  case hp =>
    intro hpre
    have hpref : (['"'] : List Char) <+: cell.dropWhile (fun c => c = ' ') :=
      List.isPrefixOf_iff_prefix.mp hpre
    have hmem : '"' ∈ cell.dropWhile (fun c => c = ' ') :=
      hpref.subset (List.mem_singleton_self '"')
    exact h ((List.dropWhile_sublist _).subset hmem)

theorem parseString_safe (cell : Cell) (h : '"' ∉ cell) :
    parseString ['"'] true cell = cell := by
  unfold parseString
  rw [if_pos (by decide), stripSurrounded_safe cell h]

theorem tokenizeAll_single (agg : Aggregator) (c : Char) :
    tokenizeAll agg [c] = tokenizeCells agg c true := rfl

/-- Parsing the comma-and-linefeed join of a nonempty rectangular safe table
under default options recovers the table, first row as header. -/
theorem parse_safe_table (T : List (List Cell)) (w : Nat) (hT : T ≠ []) (hw : 0 < w)
    (hrect : ∀ row ∈ T, row.length = w)
    (hcells : ∀ row ∈ T, ∀ cell ∈ row, cell ≠ [] ∧ ∀ c ∈ cell, SafeChar c) :
    ∃ r, parse (List.intercalate ['\n'] (T.map (List.intercalate [',']))) {} = some r
      ∧ r.header :: r.rows = T := by
  have hrows_ne : ∀ row ∈ T, row ≠ [] := by
    intro row hrow hnil
    have hl := hrect row hrow
    rw [hnil] at hl
    simp at hl
    omega
  have hchar : ∀ c ∈ List.intercalate ['\n'] (T.map (List.intercalate [','])),
      c = '\n' ∨ c = ',' ∨ ∃ row ∈ T, ∃ cell ∈ row, c ∈ cell := by
    intro c hc
    rcases intercalate_mem_cases c ['\n'] _ hc with hsep | ⟨line, hline, hcl⟩
    · exact Or.inl (by simpa using hsep)
    · obtain ⟨row, hrow, rfl⟩ := List.mem_map.mp hline
      rcases intercalate_mem_cases c [','] row hcl with hsep | ⟨cell, hcell, hcc⟩
      · exact Or.inr (Or.inl (by simpa using hsep))
      · exact Or.inr (Or.inr ⟨row, hrow, cell, hcell, hcc⟩)
  have hcr : '\r' ∉ List.intercalate ['\n'] (T.map (List.intercalate [','])) := by
    intro hm
    rcases hchar '\r' hm with h | h | ⟨row, hrow, cell, hcell, hcc⟩
    · exact absurd h (by decide)
    · exact absurd h (by decide)
    · exact (((hcells row hrow cell hcell).2 '\r' hcc).2.2.2.1) rfl
  have hnul : '\x00' ∉ List.intercalate ['\n'] (T.map (List.intercalate [','])) := by
    intro hm
    rcases hchar '\x00' hm with h | h | ⟨row, hrow, cell, hcell, hcc⟩
    · exact absurd h (by decide)
    · exact absurd h (by decide)
    · exact (((hcells row hrow cell hcell).2 '\x00' hcc).2.2.2.2) rfl
  rcases List.eq_nil_or_concat T with hnil | ⟨frontT, lastRow, heqT⟩
  · exact absurd hnil hT
  rw [List.concat_eq_append] at heqT
  have hmemT : lastRow ∈ T := by
    rw [heqT]
    exact List.mem_append.mpr (Or.inr (List.mem_singleton_self lastRow))
  rcases List.eq_nil_or_concat lastRow with hnil2 | ⟨frontC, lastCell, heqC⟩
  · exact absurd hnil2 (hrows_ne lastRow hmemT)
  rw [List.concat_eq_append] at heqC
  have hmemC : lastCell ∈ lastRow := by
    rw [heqC]
    exact List.mem_append.mpr (Or.inr (List.mem_singleton_self lastCell))
  have hlastCell_ne : lastCell ≠ [] := (hcells lastRow hmemT lastCell hmemC).1
  have hrowLast : lastRow.getLast? = some lastCell := by
    rw [heqC]
    exact List.getLast?_concat _
  have hrowI := intercalate_getLast [','] lastRow lastCell hrowLast hlastCell_ne
  have hlinesLast : (T.map (List.intercalate [','])).getLast?
      = some (List.intercalate [','] lastRow) := by
    rw [heqT, List.map_append]
    exact List.getLast?_concat _
  have houtI := intercalate_getLast ['\n'] (T.map (List.intercalate [',']))
    (List.intercalate [','] lastRow) hlinesLast hrowI.1
  have hout_last : (List.intercalate ['\n'] (T.map (List.intercalate [',']))).getLast?
      ≠ some '\n' := by
    rw [houtI.2, hrowI.2, List.getLast?_eq_getLast lastCell hlastCell_ne]
    intro hsome
    have hgm := List.getLast_mem hlastCell_ne
    exact (((hcells lastRow hmemT lastCell hmemC).2 _ hgm).2.2.1) (Option.some.inj hsome)
  have hpre : preprocess (List.intercalate ['\n'] (T.map (List.intercalate [',']))) {}
      = List.intercalate ['\n'] (T.map (List.intercalate [','])) ++ ['\n'] :=
    preprocess_safe _ hcr hnul hout_last
  obtain ⟨s', hmid, hrun⟩ := tokenize_safe_table T (initialAggregator ['"'] [[',']] {}) []
    ⟨rfl, rfl, rfl⟩ rfl rfl rfl hT (fun row hrow => ⟨hrows_ne row hrow, hcells row hrow⟩)
  have hfin := step_lf_last
    { initialAggregator ['"'] [[',']] {} with
      array := ([] : List (List Cell)) ++ T, parserState := s' } rfl hmid
  have htable : T.map (fun row => row.map (parseString ['"'] true)) = T := by
    conv_rhs => rw [← List.map_id T]
    apply List.map_congr_left
    intro row hrow
    conv_rhs => rw [← List.map_id row]
    apply List.map_congr_left
    intro cell hcell
    rw [parseString_safe cell (fun hm => ((hcells row hrow cell hcell).2 '"' hm).1 rfl)]
    rfl
  have hEQ : effectiveQuote ({} : ParseOptions).quote = ['"'] := rfl
  have hES : effectiveSeparators ({} : ParseOptions).separators = [[',']] := rfl
  have hIQ : ({} : ParseOptions).ignoreSpacesAfterQuotedString = true := rfl
  rcases T with _ | ⟨h0, rt⟩
  · exact absurd rfl hT
  refine ⟨{ header := h0, rows := rt, mappedRows := rt.map (toHashMap h0) }, ?_, rfl⟩
  unfold parse
  simp only [hEQ, hES, hIQ, hpre]
  rw [tokenizeAll_append _ _ (by simp), hrun, Option.some_bind, tokenizeAll_single, hfin]
  simp only [List.nil_append, htable]

/-- C3 (amended): the parse-stringify round trip is exact on safe tables:
for a nonempty rectangular table (every row of the same positive length)
whose cells are all nonempty and contain no quote, separator, line-break, or
NUL character, stringify under default options emits the rows joined by
commas and linefeeds, leaving the caller's table unchanged, and parse maps
that text back to exactly the original table, its first row as the header
and the remaining rows as the body.  Without the added hypotheses the round
trip can fail, as the trailing-empty-cell counterexample records. -/
theorem roundtrip_safe_table (T : List (List Cell)) (w : Nat) (hT : T ≠ []) (hw : 0 < w)
    (hrect : ∀ row ∈ T, row.length = w)
    (hcells : ∀ row ∈ T, ∀ cell ∈ row, cell ≠ [] ∧ ∀ c ∈ cell, SafeChar c) :
    stringify T {} = some (List.intercalate ['\n'] (T.map (List.intercalate [','])), T)
      ∧ ∃ r, parse (List.intercalate ['\n'] (T.map (List.intercalate [',']))) {} = some r
          ∧ r.header :: r.rows = T :=
  ⟨stringify_safe_table T w hT hw hrect hcells, parse_safe_table T w hT hw hrect hcells⟩

/-- Witness for C3's amended theorem at the concrete two-row table with rows
a and b. -/
theorem roundtrip_safe_table_witness :
    stringify [[toL "a"], [toL "b"]] {}
        = some (List.intercalate ['\n'] ([[toL "a"], [toL "b"]].map (List.intercalate [','])),
            [[toL "a"], [toL "b"]])
      ∧ ∃ r, parse (List.intercalate ['\n']
            ([[toL "a"], [toL "b"]].map (List.intercalate [',']))) {} = some r
          ∧ r.header :: r.rows = [[toL "a"], [toL "b"]] :=
  roundtrip_safe_table [[toL "a"], [toL "b"]] 1 (by decide) (by decide) (by decide) (by decide)

end CSV
